import Mathlib

/-!
# freud: `density::CorrelationFunction` and the `pmft::PMFT` accessors

A shallow embedding of `cpp/density/CorrelationFunction.cc` and `cpp/pmft/PMFT.cc`.

Conventions of the embedding:

* `float` values (`r_max`, `dr`, bond distances) are rationals.  The one `float` operation of
  the constructor, the division `m_r_max / m_dr`, rounds to IEEE binary32 (`roundToFloat`), and
  `int(floorf(..))` stored in `unsigned int nbins` follows the conversions of the language
  (`floatToInt`, `intToUnsigned`).  NaN and infinities are outside the model.
* The value type `T` (`double`, `std::complex<double>`) is exact: any field, `ℚ` or `StdComplex`
  (a pair of exact parts with the product of the standard library) when a definition is
  evaluated.
* `unsigned int` cells are `UnsignedInt`, the naturals below `2 ^ 32` with arithmetic modulo
  `2 ^ 32`; `size_t` indices are natural numbers.
* `util::Histogram`, `util::RegularAxis`, the thread-local histogram, `NeighborBond` and
  `BondHistogramCompute` are declared in headers that are not part of the sources at hand; they
  are modelled from the specification, and each such definition says so.
* The parallel loop over bonds is a list of `(thread, bond)` pairs: the bond callback of
  `accumulate` only touches the histograms of the thread that runs it, so every parallel run is
  one such interleaving.
-/

namespace freud

/-- The type `unsigned int`: the naturals below `2 ^ 32`; sums are taken modulo `2 ^ 32`. -/
abbrev UnsignedInt := Fin (2 ^ 32)

namespace util

/-- Modelled from the spec: `util::RegularAxis` (declared in `Histogram.h`, not at hand).
An axis is `{ nbins, lower, upper }`, a regular partition of `[lower, upper)`. -/
structure RegularAxis where
  nbins : Nat
  min : ℚ
  max : ℚ
  deriving DecidableEq

/-- Modelled from the spec: the width of one bin, `(upper - lower) / nbins`. -/
def RegularAxis.bin_width (a : RegularAxis) : ℚ :=
  (a.max - a.min) / (a.nbins : ℚ)

/-- Modelled from the spec: `RegularAxis::bin` (declared in `Histogram.h`, not at hand):
"maps coordinate `x` to bin `floor((x - lower) / ((upper - lower) / nbins))`". -/
def RegularAxis.bin (a : RegularAxis) (x : ℚ) : Nat :=
  Int.toNat ⌊(x - a.min) / a.bin_width⌋

/-- Modelled from the spec: `util::Histogram<V>` (declared in `Histogram.h`, not at hand):
an ordered list of axes and a flat array of accumulator cells. -/
structure Histogram (V : Type) where
  axes : List RegularAxis
  bin_counts : List V
  deriving DecidableEq

variable {V : Type}

/-- Modelled from the spec: the `Histogram(axes)` constructor: one zero cell per bin of the grid,
"size = product of per-axis `nbins`". -/
def Histogram.ofAxes [Zero V] (axes : List RegularAxis) : Histogram V :=
  { axes := axes, bin_counts := List.replicate (axes.map RegularAxis.nbins).prod 0 }

/-- Modelled from the spec: the number of cells of the flat array. -/
def Histogram.size (h : Histogram V) : Nat :=
  h.bin_counts.length

/-- Modelled from the spec: indexed read by flattened bin index (`operator[]`). -/
def Histogram.get [Zero V] (h : Histogram V) (i : Nat) : V :=
  h.bin_counts.getD i 0

/-- Modelled from the spec: indexed write by flattened bin index (`operator[]`). -/
def Histogram.put (h : Histogram V) (i : Nat) (v : V) : Histogram V :=
  { h with bin_counts := h.bin_counts.set i v }

/-- Modelled from the spec: `Histogram::reset`, "zero all cells". -/
def Histogram.reset [Zero V] (h : Histogram V) : Histogram V :=
  { h with bin_counts := List.replicate h.bin_counts.length 0 }

/-- Modelled from the spec: `Histogram::bin`, the flattened bin index of a per-axis coordinate
tuple (row-major over the axes; with the single radial axis it is that axis's bin). -/
def Histogram.bin (h : Histogram V) (coords : List ℚ) : Nat :=
  (h.axes.zip coords).foldl (fun idx p => idx * p.1.nbins + p.1.bin p.2) 0

/-- Modelled from the spec: one step of the reduction fold, "for every bin index, add that
thread's cell value into `self`'s corresponding cell". -/
def Histogram.addCells [Zero V] [Add V] (self src : Histogram V) : Histogram V :=
  { self with bin_counts := self.bin_counts.mapIdx (fun i v => v + src.get i) }

/-- Modelled from the spec: the thread-local histogram (declared in `Histogram.h`, not at hand):
"one `Histogram<V>` per distinct calling thread, created on first access by that thread, all
sharing the same axes as a prototype".  Threads are named by natural numbers. -/
structure ThreadLocalHistogram (V : Type) where
  prototype : Histogram V
  local_histograms : List (Nat × Histogram V)
  deriving DecidableEq

/-- Modelled from the spec: the thread-local histogram built from a prototype; no thread has
touched it yet. -/
def ThreadLocalHistogram.ofHistogram (h : Histogram V) : ThreadLocalHistogram V :=
  { prototype := h, local_histograms := [] }

/-- Modelled from the spec: the copies of the threads, with thread `t` incrementing its own copy
at `bin` by `delta`; the copy is created from the prototype on the first touch. -/
def ThreadLocalHistogram.incrementLocal [Zero V] [Add V] (proto : Histogram V) (t bin : Nat)
    (delta : V) : List (Nat × Histogram V) → List (Nat × Histogram V)
  | [] => [(t, proto.put bin (proto.get bin + delta))]
  | (u, h) :: rest =>
    if u = t then (u, h.put bin (h.get bin + delta)) :: rest
    else (u, h) :: ThreadLocalHistogram.incrementLocal proto t bin delta rest

/-- Modelled from the spec: `ThreadLocalHistogram::increment(bin, delta)` called on thread `t`:
it "mutates only the calling thread's own `Histogram<V>`". -/
def ThreadLocalHistogram.increment [Zero V] [Add V] (tl : ThreadLocalHistogram V) (t bin : Nat)
    (delta : V) : ThreadLocalHistogram V :=
  { tl with
    local_histograms :=
      ThreadLocalHistogram.incrementLocal tl.prototype t bin delta tl.local_histograms }

/-- Modelled from the spec: `ThreadLocalHistogram::reset`, which "zeros every thread's copy". -/
def ThreadLocalHistogram.reset [Zero V] (tl : ThreadLocalHistogram V) : ThreadLocalHistogram V :=
  { tl with local_histograms := tl.local_histograms.map (fun p => (p.1, p.2.reset)) }

/-- Modelled from the spec: `Histogram::reduceOverThreads(sources)`: zero `self`, then for every
thread-local histogram add its cells into `self`, in the order of the threads. -/
def Histogram.reduceOverThreads [Zero V] [Add V] (self : Histogram V)
    (sources : ThreadLocalHistogram V) : Histogram V :=
  sources.local_histograms.foldl (fun acc p => acc.addCells p.2) self.reset

/-- Modelled from the spec: `Histogram::reduceOverThreadsPerBin(sources, cf)`: "performs the same
fold, then for each bin index invokes a caller-supplied finishing function with that bin index".
The finishing function works on `self` and may fail; a failure ends the reduction. -/
def Histogram.reduceOverThreadsPerBin [Zero V] [Add V] (self : Histogram V)
    (sources : ThreadLocalHistogram V) (cf : Nat → Histogram V → Option (Histogram V)) :
    Option (Histogram V) :=
  (List.range self.size).foldlM (fun acc i => cf i acc) (self.reduceOverThreads sources)

/-- The histogram has the single axis `a` and one cell per bin of it. -/
def Histogram.Shaped (h : Histogram V) (a : RegularAxis) : Prop :=
  h.axes = [a] ∧ h.size = a.nbins

/-- The coordinate `x` falls in the range of bin `b` of the axis, `[lower + b * w, lower +
(b + 1) * w)` with `w` the bin width. -/
def RegularAxis.inBin (a : RegularAxis) (b : Nat) (x : ℚ) : Bool :=
  decide (a.min + (b : ℚ) * a.bin_width ≤ x ∧ x < a.min + ((b : ℚ) + 1) * a.bin_width)

/-- The sum over all threads of the cell `i` of their copies. -/
def ThreadLocalHistogram.total [Zero V] [Add V] (tl : ThreadLocalHistogram V) (i : Nat) : V :=
  (tl.local_histograms.map (fun p => p.2.get i)).sum

/-- Modelled from the spec: the copy of the histogram that thread `t` works on: its own copy if
it has touched the histogram, else the prototype its copy is created from on first access. -/
def ThreadLocalHistogram.localCopy (tl : ThreadLocalHistogram V) (t : Nat) : Histogram V :=
  (tl.local_histograms.lookup t).getD tl.prototype

end util

namespace locality

/-- Modelled from the spec: `NeighborBond` (declared in `NeighborBond.h`, not at hand): a
"(reference_index, query_index, distance)" triple; `id` is the query index. -/
structure NeighborBond where
  id : Nat
  ref_id : Nat
  distance : ℚ
  deriving DecidableEq

/-- Modelled from the spec: the bonds of one parallel loop, each with the worker thread that
processes it, in the order in which they are processed. -/
abbrev Schedule := List (Nat × NeighborBond)

end locality

/-- Modelled from the spec: the state of the base class `BondHistogramCompute` (declared in
`BondHistogramCompute.h`, not at hand): the dirty flag, the canonical count histogram and its
thread-local counterpart. -/
structure BondHistogramCompute where
  m_reduce : Bool
  m_histogram : util.Histogram UnsignedInt
  m_local_histograms : util.ThreadLocalHistogram UnsignedInt
  deriving DecidableEq

/-- Modelled from the spec: `BondHistogramCompute::reset`: clears the thread-local count
histograms and the accumulation bookkeeping (a reduction is pending afterwards). -/
def BondHistogramCompute.reset (b : BondHistogramCompute) : BondHistogramCompute :=
  { b with m_local_histograms := b.m_local_histograms.reset, m_reduce := true }

/-- The values of `std::complex<double>`, with exact parts. -/
@[ext]
structure StdComplex where
  re : ℚ
  im : ℚ
  deriving DecidableEq

namespace StdComplex

instance : Zero StdComplex := ⟨⟨0, 0⟩⟩

instance : One StdComplex := ⟨⟨1, 0⟩⟩

instance : Add StdComplex := ⟨fun z w => ⟨z.re + w.re, z.im + w.im⟩⟩

instance : Neg StdComplex := ⟨fun z => ⟨-z.re, -z.im⟩⟩

/-- The product `operator*` of `std::complex`: `(a + bi)(c + di) = (ac - bd) + (ad + bc)i`. -/
instance : Mul StdComplex := ⟨fun z w => ⟨z.re * w.re - z.im * w.im, z.re * w.im + z.im * w.re⟩⟩

instance : Inv StdComplex :=
  ⟨fun z => ⟨z.re / (z.re * z.re + z.im * z.im), -z.im / (z.re * z.re + z.im * z.im)⟩⟩

instance : Field StdComplex where
  add_assoc a b c := by
    apply StdComplex.ext
    · show a.re + b.re + c.re = a.re + (b.re + c.re); ring
    · show a.im + b.im + c.im = a.im + (b.im + c.im); ring
  zero_add a := by
    apply StdComplex.ext
    · show 0 + a.re = a.re; ring
    · show 0 + a.im = a.im; ring
  add_zero a := by
    apply StdComplex.ext
    · show a.re + 0 = a.re; ring
    · show a.im + 0 = a.im; ring
  add_comm a b := by
    apply StdComplex.ext
    · show a.re + b.re = b.re + a.re; ring
    · show a.im + b.im = b.im + a.im; ring
  neg_add_cancel a := by
    apply StdComplex.ext
    · show -a.re + a.re = 0; ring
    · show -a.im + a.im = 0; ring
  mul_assoc a b c := by
    apply StdComplex.ext
    · show (a.re * b.re - a.im * b.im) * c.re - (a.re * b.im + a.im * b.re) * c.im
        = a.re * (b.re * c.re - b.im * c.im) - a.im * (b.re * c.im + b.im * c.re)
      ring
    · show (a.re * b.re - a.im * b.im) * c.im + (a.re * b.im + a.im * b.re) * c.re
        = a.re * (b.re * c.im + b.im * c.re) + a.im * (b.re * c.re - b.im * c.im)
      ring
  one_mul a := by
    apply StdComplex.ext
    · show 1 * a.re - 0 * a.im = a.re; ring
    · show 1 * a.im + 0 * a.re = a.im; ring
  mul_one a := by
    apply StdComplex.ext
    · show a.re * 1 - a.im * 0 = a.re; ring
    · show a.re * 0 + a.im * 1 = a.im; ring
  left_distrib a b c := by
    apply StdComplex.ext
    · show a.re * (b.re + c.re) - a.im * (b.im + c.im)
        = a.re * b.re - a.im * b.im + (a.re * c.re - a.im * c.im)
      ring
    · show a.re * (b.im + c.im) + a.im * (b.re + c.re)
        = a.re * b.im + a.im * b.re + (a.re * c.im + a.im * c.re)
      ring
  right_distrib a b c := by
    apply StdComplex.ext
    · show (a.re + b.re) * c.re - (a.im + b.im) * c.im
        = a.re * c.re - a.im * c.im + (b.re * c.re - b.im * c.im)
      ring
    · show (a.re + b.re) * c.im + (a.im + b.im) * c.re
        = a.re * c.im + a.im * c.re + (b.re * c.im + b.im * c.re)
      ring
  mul_comm a b := by
    apply StdComplex.ext
    · show a.re * b.re - a.im * b.im = b.re * a.re - b.im * a.im; ring
    · show a.re * b.im + a.im * b.re = b.re * a.im + b.im * a.re; ring
  zero_mul a := by
    apply StdComplex.ext
    · show 0 * a.re - 0 * a.im = 0; ring
    · show 0 * a.im + 0 * a.re = 0; ring
  mul_zero a := by
    apply StdComplex.ext
    · show a.re * 0 - a.im * 0 = 0; ring
    · show a.re * 0 + a.im * 0 = 0; ring
  exists_pair_ne := ⟨0, 1, fun h => by
    have h1 : (0 : ℚ) = 1 := congrArg StdComplex.re h
    exact zero_ne_one h1⟩
  inv_zero := by
    apply StdComplex.ext
    · show (0 : ℚ) / (0 * 0 + 0 * 0) = 0; simp
    · show -(0 : ℚ) / (0 * 0 + 0 * 0) = 0; simp
  mul_inv_cancel a ha := by
    have hne : a.re * a.re + a.im * a.im ≠ 0 := by
      intro h0
      have h1 : a.re = 0 := by nlinarith [mul_self_nonneg a.re, mul_self_nonneg a.im]
      have h2 : a.im = 0 := by nlinarith [mul_self_nonneg a.re, mul_self_nonneg a.im]
      exact ha (StdComplex.ext h1 h2)
    apply StdComplex.ext
    · show a.re * (a.re / (a.re * a.re + a.im * a.im))
          - a.im * (-a.im / (a.re * a.re + a.im * a.im)) = 1
      field_simp
    · show a.re * (-a.im / (a.re * a.re + a.im * a.im))
          + a.im * (a.re / (a.re * a.re + a.im * a.im)) = 0
      field_simp
      ring
  nsmul := nsmulRec
  zsmul := zsmulRec
  npow := npowRec
  zpow := zpowRec
  nnqsmul := _
  qsmul := _

end StdComplex

namespace density

open util locality

/-- The error thrown by the constructor, `std::invalid_argument` with its message. -/
inductive Error where
  | invalid_argument (msg : String)
  deriving DecidableEq

/-- The members of `CorrelationFunction<T>`: those of the base class, `m_r_max`, `m_dr`, the
canonical value histogram and its thread-local counterpart. -/
structure CorrelationFunction (T : Type) extends BondHistogramCompute where
  m_r_max : ℚ
  m_dr : ℚ
  m_correlation_function : Histogram T
  m_local_correlation_function : ThreadLocalHistogram T

variable {T : Type}

/-- The nearest `float` (IEEE binary32: 24 significant bits, ties to even) to a positive real of
the normal range: with `2 ^ e ≤ x < 2 ^ (e + 1)`, the nearest multiple of `2 ^ (e - 23)`.  A
result beyond the largest `float` stands for infinity. -/
def roundToFloat (x : ℚ) : ℚ :=
  let ulp : ℚ := (2 : ℚ) ^ (Int.log 2 x - 23)
  let m : ℚ := x / ulp
  let k : ℤ :=
    if m - (⌊m⌋ : ℚ) < 1 / 2 then ⌊m⌋
    else if 1 / 2 < m - (⌊m⌋ : ℚ) then ⌊m⌋ + 1
    else if ⌊m⌋ % 2 = 0 then ⌊m⌋ else ⌊m⌋ + 1
  (k : ℚ) * ulp

/-- The division of two `float` values, as in `m_r_max / m_dr`: the quotient rounded to
`float`. -/
def floatDiv (a b : ℚ) : ℚ :=
  roundToFloat (a / b)

/-- The function `floorf`: the largest integer not above `x`, as a `float`. -/
def floorf (x : ℚ) : ℚ :=
  ((⌊x⌋ : ℤ) : ℚ)

/-- The conversion `int(x)` of a `float`: truncation toward zero.  Outside the range of `int`
the language leaves the conversion undefined; the value taken is `INT_MIN`, the result of the
conversion instruction of x86. -/
def floatToInt (x : ℚ) : ℤ :=
  let t : ℤ := if 0 ≤ x then ⌊x⌋ else ⌈x⌉
  if -(2 : ℤ) ^ 31 ≤ t ∧ t < (2 : ℤ) ^ 31 then t else -(2 : ℤ) ^ 31

/-- The conversion of an `int` to `unsigned int`: the value modulo `2 ^ 32`. -/
def intToUnsigned (i : ℤ) : Nat :=
  (i % (2 : ℤ) ^ 32).toNat

/-- The number of bins the constructor computes,
`unsigned int nbins = int(floorf(m_r_max / m_dr))`. -/
def nbinsOf (r_max dr : ℚ) : Nat :=
  intToUnsigned (floatToInt (floorf (floatDiv r_max dr)))

/-- The constructor `CorrelationFunction<T>::CorrelationFunction(r_max, dr)`: the three guards
in their order, then `nbins = int(floorf(m_r_max / m_dr))` and the two histograms with their
thread-local counterparts.  The base-class constructor leaves a reduction pending. -/
def CorrelationFunction.new (T : Type) [Zero T] (r_max dr : ℚ) :
    Except Error (CorrelationFunction T) :=
  if dr ≤ 0 then
    .error (.invalid_argument "CorrelationFunction requires dr to be positive.")
  else if r_max ≤ 0 then
    .error (.invalid_argument "CorrelationFunction requires r_max to be positive.")
  else if dr > r_max then
    .error (.invalid_argument
      "CorrelationFunction requires dr must be less than or equal to r_max.")
  else
    let nbins : Nat := nbinsOf r_max dr
    let axes : List RegularAxis := [RegularAxis.mk nbins 0 r_max]
    let m_histogram : Histogram UnsignedInt := Histogram.ofAxes axes
    let axes_rdf : List RegularAxis := [RegularAxis.mk nbins 0 r_max]
    let m_correlation_function : Histogram T := Histogram.ofAxes axes_rdf
    .ok { m_reduce := true
          m_histogram := m_histogram
          m_local_histograms := ThreadLocalHistogram.ofHistogram m_histogram
          m_r_max := r_max
          m_dr := dr
          m_correlation_function := m_correlation_function
          m_local_correlation_function := ThreadLocalHistogram.ofHistogram m_correlation_function }

/-- The division `m_correlation_function[i] /= m_histogram[i]`, with the zero divisor made
visible: `none` stands for the non-finite quotient a zero count would store.  The count is
converted to `T` by value. -/
def divByCount [Div T] [NatCast T] (v : T) (count : UnsignedInt) : Option T :=
  if count = 0 then none else some (v / ((count.val : Nat) : T))

/-- The per-bin finishing function of `reduce`, the lambda handed to `reduceOverThreadsPerBin`;
`counts` is the captured `m_histogram` and `self` the captured `m_correlation_function`. -/
def CorrelationFunction.normalizeBin [Zero T] [Div T] [NatCast T] (counts : Histogram UnsignedInt)
    (i : Nat) (self : Histogram T) : Option (Histogram T) :=
  if counts.get i ≠ 0 then
    (divByCount (self.get i) (counts.get i)).map (fun q => self.put i q)
  else
    some self

/-- The method `CorrelationFunction<T>::reduce`: both canonical histograms are reset, the counts
are reduced over the threads, and the values are reduced with the per-bin finishing function.
The result is `none` only if the finishing function divides by a zero count. -/
def CorrelationFunction.reduce [Zero T] [Add T] [Div T] [NatCast T] (cf : CorrelationFunction T) :
    Option (CorrelationFunction T) :=
  let m_histogram := cf.m_histogram.reset
  let m_correlation_function := cf.m_correlation_function.reset
  let m_histogram := m_histogram.reduceOverThreads cf.m_local_histograms
  (m_correlation_function.reduceOverThreadsPerBin cf.m_local_correlation_function
      (CorrelationFunction.normalizeBin m_histogram)).map
    (fun m_correlation_function =>
      { cf with
        m_histogram := m_histogram
        m_correlation_function := m_correlation_function })

/-- The method `CorrelationFunction<T>::reset`: `BondHistogramCompute::reset()`, then the
thread-local value histograms are zeroed as well. -/
def CorrelationFunction.reset [Zero T] (cf : CorrelationFunction T) : CorrelationFunction T :=
  { cf with
    toBondHistogramCompute := cf.toBondHistogramCompute.reset
    m_local_correlation_function := cf.m_local_correlation_function.reset }

/-- The bond callback of `accumulate` (the lambda handed to `accumulateGeneral`), run by thread
`t` on the bond `neighbor_bond`; `values` and `query_values` are the captured arrays. -/
def CorrelationFunction.bondCallback [Zero T] [Add T] [Mul T] (values query_values : Nat → T)
    (cf : CorrelationFunction T) (t : Nat) (neighbor_bond : NeighborBond) :
    CorrelationFunction T :=
  let value_bin := cf.m_histogram.bin [neighbor_bond.distance]
  { cf with
    m_local_histograms := cf.m_local_histograms.increment t value_bin 1
    m_local_correlation_function :=
      cf.m_local_correlation_function.increment t value_bin
        (values neighbor_bond.ref_id * query_values neighbor_bond.id) }

/-- Modelled from the spec: `BondHistogramCompute::accumulateGeneral` (declared in
`BondHistogramCompute.h`, not at hand): every enumerated bond is handed to the callback on the
thread that owns it, and the dirty flag is "set true on any new accumulation". -/
def CorrelationFunction.accumulateGeneral (bonds : Schedule)
    (cb : CorrelationFunction T → Nat → NeighborBond → CorrelationFunction T)
    (cf : CorrelationFunction T) : CorrelationFunction T :=
  { bonds.foldl (fun s p => cb s p.1 p.2) cf with m_reduce := true }

/-- The method `CorrelationFunction<T>::accumulate`; the neighbour query, the query points, the
neighbour list and the query arguments fix the bonds that are enumerated, here `bonds`. -/
def CorrelationFunction.accumulate [Zero T] [Add T] [Mul T] (cf : CorrelationFunction T)
    (values query_values : Nat → T) (bonds : Schedule) : CorrelationFunction T :=
  CorrelationFunction.accumulateGeneral bonds (CorrelationFunction.bondCallback values query_values)
    cf

/-- What `reduce` leaves in `s` when it is run on `cf`: the thread-local histograms and the
parameters are those of `cf`, the canonical counts are the per-bin totals over the threads, and
the canonical values are the per-bin totals divided by a non-zero count. -/
structure CorrelationFunction.ReducedFrom [Field T] (cf s : CorrelationFunction T) : Prop where
  reduce_eq : s.m_reduce = cf.m_reduce
  local_count_eq : s.m_local_histograms = cf.m_local_histograms
  local_value_eq : s.m_local_correlation_function = cf.m_local_correlation_function
  r_max_eq : s.m_r_max = cf.m_r_max
  dr_eq : s.m_dr = cf.m_dr
  count_axes : s.m_histogram.axes = cf.m_histogram.axes
  count_size : s.m_histogram.size = cf.m_histogram.size
  count_get : ∀ i, i < cf.m_histogram.size → s.m_histogram.get i = cf.m_local_histograms.total i
  value_axes : s.m_correlation_function.axes = cf.m_correlation_function.axes
  value_size : s.m_correlation_function.size = cf.m_correlation_function.size
  value_get : ∀ i, i < cf.m_correlation_function.size →
    s.m_correlation_function.get i =
      if s.m_histogram.get i ≠ 0 then
        cf.m_local_correlation_function.total i / (((s.m_histogram.get i).val : Nat) : T)
      else cf.m_local_correlation_function.total i

/-- The relation between the copies one thread holds of the count and of the value histogram:
they belong to the same thread and both have the geometry of `a`. -/
def LocalPair (a : RegularAxis) (c : Nat × Histogram UnsignedInt) (v : Nat × Histogram T) :
    Prop :=
  c.1 = v.1 ∧ c.2.Shaped a ∧ v.2.Shaped a

/-- The invariant of a constructed `CorrelationFunction`: every histogram it owns (canonical,
prototype, thread-local) has the geometry of the axis `a`, the prototypes are zero, and the
threads hold their count and value copies in pairs. -/
structure CorrelationFunction.Inv [Zero T] (cf : CorrelationFunction T) (a : RegularAxis) :
    Prop where
  count : cf.m_histogram.Shaped a
  value : cf.m_correlation_function.Shaped a
  count_proto : cf.m_local_histograms.prototype.Shaped a
  count_proto_zero : ∀ i, cf.m_local_histograms.prototype.get i = 0
  value_proto : cf.m_local_correlation_function.prototype.Shaped a
  value_proto_zero : ∀ i, cf.m_local_correlation_function.prototype.get i = 0
  paired : List.Forall₂ (LocalPair a) cf.m_local_histograms.local_histograms
    cf.m_local_correlation_function.local_histograms

/-- The states of an object built by `CorrelationFunction(r_max, dr)`: the one the constructor
returns, and those that `accumulate` (over bonds whose distance the neighbour query has kept
in `[0, r_max)`), `reset` and `reduce` lead to. -/
inductive CorrelationFunction.Reachable [Field T] (r_max dr : ℚ) : CorrelationFunction T → Prop
  | new {cf : CorrelationFunction T} :
      CorrelationFunction.new T r_max dr = .ok cf → CorrelationFunction.Reachable r_max dr cf
  | accumulate {cf : CorrelationFunction T} (values query_values : Nat → T) (bonds : Schedule) :
      CorrelationFunction.Reachable r_max dr cf →
      (∀ p ∈ bonds, 0 ≤ p.2.distance ∧ p.2.distance < r_max) →
      CorrelationFunction.Reachable r_max dr (cf.accumulate values query_values bonds)
  | reset {cf : CorrelationFunction T} :
      CorrelationFunction.Reachable r_max dr cf → CorrelationFunction.Reachable r_max dr cf.reset
  | reduce {cf s : CorrelationFunction T} :
      CorrelationFunction.Reachable r_max dr cf → cf.reduce = some s →
      CorrelationFunction.Reachable r_max dr s

/-- What the bonds of a batch carry into the histograms: for each bond its distance, the
reference value `values[ref_id]` and the query value `query_values[id]`. -/
def contributions (values query_values : Nat → T) (bonds : Schedule) : List (ℚ × T × T) :=
  bonds.map (fun p => (p.2.distance, values p.2.ref_id, query_values p.2.id))

/-- The object `CorrelationFunction<double>(2.0, 1.0)` of the concrete scenario: two bins,
`[0, 1)` and `[1, 2)`, and no thread has accumulated yet. -/
def scenario : CorrelationFunction ℚ :=
  { m_reduce := true
    m_histogram := ⟨[⟨2, 0, 2⟩], [0, 0]⟩
    m_local_histograms := ⟨⟨[⟨2, 0, 2⟩], [0, 0]⟩, []⟩
    m_r_max := 2
    m_dr := 1
    m_correlation_function := ⟨[⟨2, 0, 2⟩], [0, 0]⟩
    m_local_correlation_function := ⟨⟨[⟨2, 0, 2⟩], [0, 0]⟩, []⟩ }

/-- The reference values `[2.0, 3.0]` of the concrete scenario. -/
def scenarioValues : Nat → ℚ := fun i => [2, 3].getD i 0

/-- The query values `[1.0, 4.0]` of the concrete scenario. -/
def scenarioQueryValues : Nat → ℚ := fun i => [1, 4].getD i 0

/-- The bonds `(ref=0, q=0, d=0.5)`, `(ref=0, q=1, d=1.5)`, `(ref=1, q=0, d=0.5)` of the concrete
scenario, the first two on thread 0 and the last on thread 1. -/
def scenarioBonds : Schedule :=
  [(0, ⟨0, 0, 1 / 2⟩), (0, ⟨1, 0, 3 / 2⟩), (1, ⟨0, 1, 1 / 2⟩)]

/-- One bond at distance `0.5` between reference point 0 and query point 0, on thread 0. -/
def scenarioOneBond : Schedule :=
  [(0, ⟨0, 0, 1 / 2⟩)]

/-- The bonds of the concrete scenario handed to other threads: the first on thread 2, the
other two on thread 5. -/
def scenarioBondsRescheduled : Schedule :=
  [(2, ⟨0, 0, 1 / 2⟩), (5, ⟨1, 0, 3 / 2⟩), (5, ⟨0, 1, 1 / 2⟩)]

/-- A batch of `2 ^ 32` bonds at distance `0.5` between reference point 0 and query point 0, all
on thread 0. -/
def scenarioManyBonds : Schedule :=
  List.replicate (2 ^ 32) (0, ⟨0, 0, 1 / 2⟩)

/-- The `float` nearest to `0.1`, the value of the literal `0.1f`: `13421773 / 2 ^ 27`. -/
def floatTenth : ℚ :=
  13421773 / 134217728

/-- The record of one processed bond: the thread that ran the callback, the bond, and the product
the callback added to the value cell. -/
abbrev LogEntry (T : Type) := Nat × NeighborBond × T

/-- The records of the bonds one `accumulate` call processes. -/
def logOf [Mul T] (values query_values : Nat → T) (bonds : Schedule) : List (LogEntry T) :=
  bonds.map (fun p => (p.1, p.2, values p.2.ref_id * query_values p.2.id))

/-- The reachable states together with the bonds processed since construction or the last
`reset`: `accumulate` appends the records of its bonds, `reset` empties the record, `reduce`
keeps it. -/
inductive CorrelationFunction.History [Field T] (r_max dr : ℚ) :
    List (LogEntry T) → CorrelationFunction T → Prop
  | new {cf : CorrelationFunction T} :
      CorrelationFunction.new T r_max dr = .ok cf → CorrelationFunction.History r_max dr [] cf
  | accumulate {log : List (LogEntry T)} {cf : CorrelationFunction T}
      (values query_values : Nat → T) (bonds : Schedule) :
      CorrelationFunction.History r_max dr log cf →
      (∀ p ∈ bonds, 0 ≤ p.2.distance ∧ p.2.distance < r_max) →
      CorrelationFunction.History r_max dr (log ++ logOf values query_values bonds)
        (cf.accumulate values query_values bonds)
  | reset {log : List (LogEntry T)} {cf : CorrelationFunction T} :
      CorrelationFunction.History r_max dr log cf →
      CorrelationFunction.History r_max dr [] cf.reset
  | reduce {log : List (LogEntry T)} {cf s : CorrelationFunction T} :
      CorrelationFunction.History r_max dr log cf → cf.reduce = some s →
      CorrelationFunction.History r_max dr log s

/-- The object `CorrelationFunction<std::complex<double>>(2.0, 1.0)` of the complex-valued
scenario. -/
def scenarioComplex : CorrelationFunction StdComplex :=
  { m_reduce := true
    m_histogram := ⟨[⟨2, 0, 2⟩], [0, 0]⟩
    m_local_histograms := ⟨⟨[⟨2, 0, 2⟩], [0, 0]⟩, []⟩
    m_r_max := 2
    m_dr := 1
    m_correlation_function := ⟨[⟨2, 0, 2⟩], [0, 0]⟩
    m_local_correlation_function := ⟨⟨[⟨2, 0, 2⟩], [0, 0]⟩, []⟩ }

/-- The reference values `[1 + 0i]` of the complex-valued scenario. -/
def scenarioComplexValues : Nat → StdComplex := fun i => [(⟨1, 0⟩ : StdComplex)].getD i 0

/-- The query values `[0 + 1i]` of the complex-valued scenario. -/
def scenarioComplexQueryValues : Nat → StdComplex :=
  fun i => [(⟨0, 1⟩ : StdComplex)].getD i 0

end density

namespace pmft

/-- The members of `PMFT` the accessors read and write: the dirty flag, the shared bin-count and
PCF arrays, and the per-thread raw buffers. -/
structure PMFT where
  m_reduce : Bool
  m_bin_counts : List UnsignedInt
  m_pcf_array : List ℚ
  m_local_bin_counts : List (List UnsignedInt)
  deriving DecidableEq

/-- What a call of an accessor amounts to: the array it returns, the state it leaves, and how
many times it invoked `reducePCF`. -/
structure Call (α : Type) where
  value : α
  state : PMFT
  reducePCF_calls : Nat

/-- The accessor `PMFT::getBinCounts`; `reducePCF` is the virtual method the derived classes
supply, here a parameter. -/
def PMFT.getBinCounts (reducePCF : PMFT → PMFT) (self : PMFT) : Call (List UnsignedInt) :=
  let after : PMFT × Nat := if self.m_reduce = true then (reducePCF self, 1) else (self, 0)
  let s : PMFT := { after.1 with m_reduce := false }
  { value := s.m_bin_counts, state := s, reducePCF_calls := after.2 }

/-- The accessor `PMFT::getPCF`; `reducePCF` is the virtual method the derived classes supply,
here a parameter. -/
def PMFT.getPCF (reducePCF : PMFT → PMFT) (self : PMFT) : Call (List ℚ) :=
  let after : PMFT × Nat := if self.m_reduce = true then (reducePCF self, 1) else (self, 0)
  let s : PMFT := { after.1 with m_reduce := false }
  { value := s.m_pcf_array, state := s, reducePCF_calls := after.2 }

end pmft

end freud

namespace freud.util

theorem RegularAxis.bin_width_pos {a : RegularAxis} (hn : 0 < a.nbins) (hlt : a.min < a.max) :
    0 < a.bin_width := by
  unfold RegularAxis.bin_width
  have : (0 : ℚ) < (a.nbins : ℚ) := by exact_mod_cast hn
  exact div_pos (sub_pos.mpr hlt) this

theorem RegularAxis.bin_eq_iff {a : RegularAxis} (hn : 0 < a.nbins) (hlt : a.min < a.max)
    {x : ℚ} (hx : a.min ≤ x) (k : Nat) :
    a.bin x = k ↔
      a.min + (k : ℚ) * a.bin_width ≤ x ∧ x < a.min + ((k : ℚ) + 1) * a.bin_width := by
  have hw := RegularAxis.bin_width_pos hn hlt
  have h0 : 0 ≤ (x - a.min) / a.bin_width := div_nonneg (sub_nonneg.mpr hx) hw.le
  have hf : 0 ≤ ⌊(x - a.min) / a.bin_width⌋ := Int.floor_nonneg.mpr h0
  unfold RegularAxis.bin
  constructor
  · intro h
    have hk : ⌊(x - a.min) / a.bin_width⌋ = (k : ℤ) := by omega
    rw [Int.floor_eq_iff] at hk
    obtain ⟨h1, h2⟩ := hk
    rw [le_div_iff₀ hw] at h1
    rw [div_lt_iff₀ hw] at h2
    push_cast at h1 h2
    constructor <;> linarith
  · rintro ⟨h1, h2⟩
    have hk : ⌊(x - a.min) / a.bin_width⌋ = (k : ℤ) := by
      rw [Int.floor_eq_iff]
      constructor
      · rw [le_div_iff₀ hw]; push_cast; linarith
      · rw [div_lt_iff₀ hw]; push_cast; linarith
    omega

theorem RegularAxis.bin_lt {a : RegularAxis} (hn : 0 < a.nbins) (hlt : a.min < a.max)
    {x : ℚ} (hx : a.min ≤ x) (hx' : x < a.max) : a.bin x < a.nbins := by
  have hw := RegularAxis.bin_width_pos hn hlt
  have h := (RegularAxis.bin_eq_iff hn hlt hx (a.bin x)).mp rfl
  have hnq : (0 : ℚ) < (a.nbins : ℚ) := by exact_mod_cast hn
  have hmax : a.min + (a.nbins : ℚ) * a.bin_width = a.max := by
    unfold RegularAxis.bin_width; field_simp
  by_contra hcon
  have hge : (a.nbins : ℚ) ≤ (a.bin x : ℚ) := by exact_mod_cast not_lt.mp hcon
  have : (a.nbins : ℚ) * a.bin_width ≤ (a.bin x : ℚ) * a.bin_width :=
    mul_le_mul_of_nonneg_right hge hw.le
  linarith [h.1]

theorem Histogram.bin_single {V : Type} (h : Histogram V) (a : RegularAxis) (x : ℚ)
    (ha : h.axes = [a]) : h.bin [x] = a.bin x := by
  simp [Histogram.bin, ha]

section cells
variable {V : Type}

theorem Histogram.get_of_size_le [Zero V] {h : Histogram V} {i : Nat} (hi : h.size ≤ i) :
    h.get i = 0 := by
  unfold Histogram.get Histogram.size at *
  simp [List.getD_eq_getElem?_getD, List.getElem?_eq_none hi]

theorem Histogram.size_put (h : Histogram V) (i : Nat) (v : V) : (h.put i v).size = h.size := by
  simp [Histogram.put, Histogram.size]

theorem Histogram.get_put [Zero V] (h : Histogram V) (i j : Nat) (v : V) :
    (h.put i v).get j = if i = j ∧ i < h.size then v else h.get j := by
  unfold Histogram.put Histogram.get Histogram.size
  simp only [List.getD_eq_getElem?_getD, List.getElem?_set]
  by_cases hij : i = j
  · subst hij
    by_cases hi : i < h.bin_counts.length
    · simp [hi]
    · simp [hi, List.getElem?_eq_none (not_lt.mp hi)]
  · simp [hij]

theorem Histogram.size_reset [Zero V] (h : Histogram V) : h.reset.size = h.size := by
  simp [Histogram.reset, Histogram.size]

theorem Histogram.get_reset [Zero V] (h : Histogram V) (i : Nat) : h.reset.get i = 0 := by
  unfold Histogram.reset Histogram.get
  simp only [List.getD_eq_getElem?_getD, List.getElem?_replicate]
  split <;> rfl

theorem Histogram.size_addCells [Zero V] [Add V] (self src : Histogram V) :
    (self.addCells src).size = self.size := by
  simp [Histogram.addCells, Histogram.size]

theorem Histogram.get_addCells [Zero V] [Add V] (self src : Histogram V) {i : Nat}
    (hi : i < self.size) : (self.addCells src).get i = self.get i + src.get i := by
  unfold Histogram.size at hi
  unfold Histogram.addCells Histogram.get
  simp [List.getD_eq_getElem?_getD, List.getElem?_mapIdx, List.getElem?_eq_getElem hi]

theorem Histogram.ext_get [Zero V] {h h' : Histogram V} (hax : h.axes = h'.axes)
    (hsz : h.size = h'.size) (hget : ∀ i, i < h.size → h.get i = h'.get i) : h = h' := by
  cases h with
  | mk ax bc =>
    cases h' with
    | mk ax' bc' =>
      simp only [Histogram.size, Histogram.get] at *
      subst hax
      congr 1
      apply List.ext_getElem hsz
      intro i h1 h2
      have := hget i h1
      simpa [List.getD_eq_getElem?_getD, List.getElem?_eq_getElem h1,
        List.getElem?_eq_getElem h2] using this

end cells

section reduction
variable {V : Type}

theorem Histogram.axes_foldl_addCells [Zero V] [Add V] (l : List (Nat × Histogram V))
    (acc : Histogram V) :
    (l.foldl (fun acc p => acc.addCells p.2) acc).axes = acc.axes := by
  induction l generalizing acc with
  | nil => rfl
  | cons p l ih => simp only [List.foldl_cons]; rw [ih]; rfl

theorem Histogram.size_foldl_addCells [Zero V] [Add V] (l : List (Nat × Histogram V))
    (acc : Histogram V) :
    (l.foldl (fun acc p => acc.addCells p.2) acc).size = acc.size := by
  induction l generalizing acc with
  | nil => rfl
  | cons p l ih => simp only [List.foldl_cons]; rw [ih, Histogram.size_addCells]

theorem Histogram.get_foldl_addCells [AddCommMonoid V] (l : List (Nat × Histogram V))
    (acc : Histogram V) {i : Nat} (hi : i < acc.size) :
    (l.foldl (fun acc p => acc.addCells p.2) acc).get i
      = acc.get i + (l.map (fun p => p.2.get i)).sum := by
  induction l generalizing acc with
  | nil => simp
  | cons p l ih =>
    simp only [List.foldl_cons, List.map_cons, List.sum_cons]
    rw [ih _ (by rw [Histogram.size_addCells]; exact hi), Histogram.get_addCells _ _ hi, add_assoc]

theorem Histogram.axes_reduceOverThreads [Zero V] [Add V] (self : Histogram V)
    (src : ThreadLocalHistogram V) : (self.reduceOverThreads src).axes = self.axes := by
  unfold Histogram.reduceOverThreads
  rw [Histogram.axes_foldl_addCells]; rfl

theorem Histogram.size_reduceOverThreads [Zero V] [Add V] (self : Histogram V)
    (src : ThreadLocalHistogram V) : (self.reduceOverThreads src).size = self.size := by
  unfold Histogram.reduceOverThreads
  rw [Histogram.size_foldl_addCells, Histogram.size_reset]

theorem Histogram.get_reduceOverThreads [AddCommMonoid V] (self : Histogram V)
    (src : ThreadLocalHistogram V) {i : Nat} (hi : i < self.size) :
    (self.reduceOverThreads src).get i = src.total i := by
  unfold Histogram.reduceOverThreads ThreadLocalHistogram.total
  rw [Histogram.get_foldl_addCells _ _ (by rw [Histogram.size_reset]; exact hi),
    Histogram.get_reset, zero_add]

theorem foldlM_option_some {α β : Type} (g : β → α → β) (l : List α) (b : β) :
    l.foldlM (fun acc a => some (g acc a)) b = some (l.foldl g b) := by
  induction l generalizing b with
  | nil => rfl
  | cons a l ih => simp only [List.foldlM_cons, List.foldl_cons]; exact ih _

end reduction


section locals
variable {V : Type}

theorem Histogram.Shaped.put_shaped {h : Histogram V} {a : RegularAxis} (hs : h.Shaped a) (i : Nat)
    (v : V) : (h.put i v).Shaped a :=
  ⟨hs.1, by rw [Histogram.size_put]; exact hs.2⟩

theorem Histogram.Shaped.reset_shaped [Zero V] {h : Histogram V} {a : RegularAxis} (hs : h.Shaped a) :
    h.reset.Shaped a :=
  ⟨hs.1, by rw [Histogram.size_reset]; exact hs.2⟩

theorem Histogram.Shaped.ofAxes_shaped [Zero V] (a : RegularAxis) :
    (Histogram.ofAxes [a] : Histogram V).Shaped a := by
  constructor
  · rfl
  · simp [Histogram.ofAxes, Histogram.size]

theorem Histogram.get_ofAxes [Zero V] (axes : List RegularAxis) (i : Nat) :
    (Histogram.ofAxes axes : Histogram V).get i = 0 := by
  unfold Histogram.ofAxes Histogram.get
  simp only [List.getD_eq_getElem?_getD, List.getElem?_replicate]
  split <;> rfl

/-- One increment changes the total of a bin by the increment if it is the bin incremented, and
leaves the total of every other bin unchanged. -/
theorem ThreadLocalHistogram.sum_incrementLocal [AddCommMonoid V] {n : Nat}
    (proto : Histogram V) (hps : proto.size = n) (hpz : ∀ i, proto.get i = 0) (t bin : Nat)
    (delta : V) (l : List (Nat × Histogram V)) (hl : ∀ p ∈ l, p.2.size = n) {i : Nat}
    (hi : i < n) :
    ((ThreadLocalHistogram.incrementLocal proto t bin delta l).map (fun p => p.2.get i)).sum
      = (l.map (fun p => p.2.get i)).sum + if bin = i then delta else 0 := by
  induction l with
  | nil =>
    simp only [ThreadLocalHistogram.incrementLocal, List.map_cons, List.map_nil, List.sum_cons,
      List.sum_nil, Histogram.get_put, hpz, zero_add, add_zero]
    by_cases hb : bin = i
    · subst hb; simp [hps, hi]
    · simp [hb]
  | cons p l ih =>
    obtain ⟨u, h⟩ := p
    have hh : h.size = n := hl (u, h) (List.mem_cons_self _ _)
    have hl' : ∀ p ∈ l, p.2.size = n := fun p hp => hl p (List.mem_cons_of_mem _ hp)
    unfold ThreadLocalHistogram.incrementLocal
    by_cases hu : u = t
    · simp only [hu, if_true, List.map_cons, List.sum_cons, Histogram.get_put]
      by_cases hb : bin = i
      · subst hb
        simp only [hh, hi, and_self, if_true]
        rw [add_assoc, add_comm delta, ← add_assoc]
      · simp [hb]
    · simp only [hu, if_false, List.map_cons, List.sum_cons]
      rw [ih hl', add_assoc]

theorem ThreadLocalHistogram.total_increment [AddCommMonoid V] {n : Nat}
    (tl : ThreadLocalHistogram V) (hps : tl.prototype.size = n)
    (hpz : ∀ i, tl.prototype.get i = 0) (hl : ∀ p ∈ tl.local_histograms, p.2.size = n)
    (t bin : Nat) (delta : V) {i : Nat} (hi : i < n) :
    (tl.increment t bin delta).total i = tl.total i + if bin = i then delta else 0 := by
  unfold ThreadLocalHistogram.total ThreadLocalHistogram.increment
  exact ThreadLocalHistogram.sum_incrementLocal tl.prototype hps hpz t bin delta _ hl hi

theorem ThreadLocalHistogram.total_reset [AddCommMonoid V] (tl : ThreadLocalHistogram V)
    (i : Nat) : tl.reset.total i = 0 := by
  unfold ThreadLocalHistogram.total ThreadLocalHistogram.reset
  simp only [List.map_map]
  apply List.sum_eq_zero
  intro x hx
  simp only [List.mem_map, Function.comp] at hx
  obtain ⟨p, _, rfl⟩ := hx
  exact Histogram.get_reset _ _

end locals


end freud.util

namespace freud.density
open util locality

theorem log_two_eq (x : ℚ) (e : ℤ) (h1 : (2 : ℚ) ^ e ≤ x) (h2 : x < (2 : ℚ) ^ (e + 1)) :
    Int.log 2 x = e := by
  have hx : 0 < x := lt_of_lt_of_le (zpow_pos (by norm_num) _) h1
  have a := (Int.zpow_le_iff_le_log (b := 2) (by norm_num) hx).mp (by exact_mod_cast h1)
  have b := (Int.lt_zpow_iff_log_lt (b := 2) (by norm_num) hx).mp (by exact_mod_cast h2)
  omega

/-- A real strictly between two neighbouring half-way points rounds to the multiple of the unit
in the last place between them. -/
theorem roundToFloat_eq (x : ℚ) (e k : ℤ) (he : Int.log 2 x = e)
    (hk1 : ((k : ℚ) - 1 / 2) * (2 : ℚ) ^ (e - 23) < x)
    (hk2 : x < ((k : ℚ) + 1 / 2) * (2 : ℚ) ^ (e - 23)) :
    roundToFloat x = (k : ℚ) * (2 : ℚ) ^ (e - 23) := by
  have hu : (0 : ℚ) < (2 : ℚ) ^ (e - 23) := zpow_pos (by norm_num) _
  have h1 : (k : ℚ) - 1 / 2 < x / (2 : ℚ) ^ (e - 23) := by rw [lt_div_iff₀ hu]; exact hk1
  have h2 : x / (2 : ℚ) ^ (e - 23) < (k : ℚ) + 1 / 2 := by rw [div_lt_iff₀ hu]; exact hk2
  have hle := Int.floor_le (x / (2 : ℚ) ^ (e - 23))
  have hlt := Int.lt_floor_add_one (x / (2 : ℚ) ^ (e - 23))
  unfold roundToFloat
  simp only [he]
  by_cases hc : x / (2 : ℚ) ^ (e - 23) - (⌊x / (2 : ℚ) ^ (e - 23)⌋ : ℚ) < 1 / 2
  · rw [if_pos hc]
    have hf : ⌊x / (2 : ℚ) ^ (e - 23)⌋ = k := by
      have a1 : ((⌊x / (2 : ℚ) ^ (e - 23)⌋ : ℤ) : ℚ) < (k : ℚ) + 1 := by linarith
      have a2 : (k : ℚ) - 1 < ((⌊x / (2 : ℚ) ^ (e - 23)⌋ : ℤ) : ℚ) := by linarith
      have b1 : ⌊x / (2 : ℚ) ^ (e - 23)⌋ < k + 1 := by exact_mod_cast a1
      have b2 : k - 1 < ⌊x / (2 : ℚ) ^ (e - 23)⌋ := by exact_mod_cast a2
      omega
    rw [hf]
  · rw [if_neg hc]
    have hc' : 1 / 2 ≤ x / (2 : ℚ) ^ (e - 23) - (⌊x / (2 : ℚ) ^ (e - 23)⌋ : ℚ) := not_lt.mp hc
    have hf : ⌊x / (2 : ℚ) ^ (e - 23)⌋ = k - 1 := by
      have a1 : ((⌊x / (2 : ℚ) ^ (e - 23)⌋ : ℤ) : ℚ) < (k : ℚ) := by linarith
      have a2 : (k : ℚ) - 2 < ((⌊x / (2 : ℚ) ^ (e - 23)⌋ : ℤ) : ℚ) := by linarith
      have b1 : ⌊x / (2 : ℚ) ^ (e - 23)⌋ < k := by exact_mod_cast a1
      have b2 : k - 2 < ⌊x / (2 : ℚ) ^ (e - 23)⌋ := by exact_mod_cast a2
      omega
    have hgt : 1 / 2 < x / (2 : ℚ) ^ (e - 23) - (⌊x / (2 : ℚ) ^ (e - 23)⌋ : ℚ) := by
      rw [hf]; push_cast; linarith
    rw [if_pos hgt, hf]
    congr 1
    push_cast; ring

/-- Rounding to `float` does not take a real that is at least 1 below 1. -/
theorem one_le_roundToFloat {x : ℚ} (hx : 1 ≤ x) : 1 ≤ roundToFloat x := by
  have hx0 : 0 < x := lt_of_lt_of_le one_pos hx
  have he : 0 ≤ Int.log 2 x :=
    (Int.zpow_le_iff_le_log (b := 2) (by norm_num) hx0).mp (by simpa using hx)
  have hpow : (2 : ℚ) ^ Int.log 2 x ≤ x := by
    have := Int.zpow_log_le_self (b := 2) (r := x) (by norm_num) hx0
    exact_mod_cast this
  have hu : (0 : ℚ) < (2 : ℚ) ^ (Int.log 2 x - 23) := zpow_pos (by norm_num) _
  have hsplit : (2 : ℚ) ^ Int.log 2 x = (2 : ℚ) ^ (23 : ℤ) * (2 : ℚ) ^ (Int.log 2 x - 23) := by
    rw [← zpow_add₀ (by norm_num : (2 : ℚ) ≠ 0)]
    congr 1; ring
  have hm : ((2 ^ 23 : ℤ) : ℚ) ≤ x / (2 : ℚ) ^ (Int.log 2 x - 23) := by
    rw [le_div_iff₀ hu]
    have h23 : ((2 ^ 23 : ℤ) : ℚ) = (2 : ℚ) ^ (23 : ℤ) := by norm_num
    rw [h23, ← hsplit]
    exact hpow
  have hfl : (2 ^ 23 : ℤ) ≤ ⌊x / (2 : ℚ) ^ (Int.log 2 x - 23)⌋ := Int.le_floor.mpr hm
  have hk : ∀ k : ℤ, ⌊x / (2 : ℚ) ^ (Int.log 2 x - 23)⌋ ≤ k →
      1 ≤ (k : ℚ) * (2 : ℚ) ^ (Int.log 2 x - 23) := by
    intro k hk
    have hk' : ((2 ^ 23 : ℤ) : ℚ) ≤ (k : ℚ) := by exact_mod_cast le_trans hfl hk
    have h1 : (1 : ℚ) ≤ (2 : ℚ) ^ Int.log 2 x := one_le_zpow₀ (by norm_num) he
    calc (1 : ℚ) ≤ (2 : ℚ) ^ Int.log 2 x := h1
      _ = ((2 ^ 23 : ℤ) : ℚ) * (2 : ℚ) ^ (Int.log 2 x - 23) := by
          rw [hsplit]; norm_num
      _ ≤ (k : ℚ) * (2 : ℚ) ^ (Int.log 2 x - 23) := mul_le_mul_of_nonneg_right hk' hu.le
  unfold roundToFloat
  simp only
  split_ifs
  · exact hk _ le_rfl
  · exact hk _ (by omega)
  · exact hk _ le_rfl
  · exact hk _ (by omega)

theorem intToUnsigned_floatToInt_floorf (y : ℚ) (hy : 1 ≤ y) :
    1 ≤ intToUnsigned (floatToInt (floorf y)) ∧
      (⌊y⌋ < (2 : ℤ) ^ 31 → (intToUnsigned (floatToInt (floorf y)) : ℤ) = ⌊y⌋) := by
  have hf : (1 : ℤ) ≤ ⌊y⌋ := Int.le_floor.mpr (by simpa using hy)
  have h0 : (0 : ℚ) ≤ floorf y := by
    unfold floorf
    exact_mod_cast (le_trans (by norm_num) hf : (0 : ℤ) ≤ ⌊y⌋)
  have hfl : ⌊floorf y⌋ = ⌊y⌋ := by
    unfold floorf
    exact Int.floor_intCast _
  unfold floatToInt intToUnsigned
  simp only [h0, if_true, hfl]
  by_cases hr : ⌊y⌋ < (2 : ℤ) ^ 31
  · have hc : -(2 : ℤ) ^ 31 ≤ ⌊y⌋ ∧ ⌊y⌋ < (2 : ℤ) ^ 31 := ⟨by omega, hr⟩
    rw [if_pos hc]
    have hmod : ⌊y⌋ % (2 : ℤ) ^ 32 = ⌊y⌋ := Int.emod_eq_of_lt (by omega) (by omega)
    rw [hmod]
    constructor
    · omega
    · intro _; omega
  · have hc : ¬ (-(2 : ℤ) ^ 31 ≤ ⌊y⌋ ∧ ⌊y⌋ < (2 : ℤ) ^ 31) := fun h => hr h.2
    rw [if_neg hc]
    constructor
    · norm_num
    · intro h; exact absurd h hr

theorem nbins_pos {r_max dr : ℚ} (hdr : 0 < dr) (hle : dr ≤ r_max) :
    1 ≤ nbinsOf r_max dr := by
  have h1 : (1 : ℚ) ≤ r_max / dr := by
    rw [le_div_iff₀ hdr]; simpa using hle
  exact (intToUnsigned_floatToInt_floorf _ (one_le_roundToFloat h1)).1

/-- When the floor of the rounded quotient fits an `int`, the constructor computes it. -/
theorem nbinsOf_eq_floor_floatDiv {r_max dr : ℚ} (hdr : 0 < dr) (hle : dr ≤ r_max)
    (hfit : ⌊floatDiv r_max dr⌋ < (2 : ℤ) ^ 31) :
    (nbinsOf r_max dr : ℤ) = ⌊floatDiv r_max dr⌋ := by
  have h1 : (1 : ℚ) ≤ r_max / dr := by
    rw [le_div_iff₀ hdr]; simpa using hle
  exact (intToUnsigned_floatToInt_floorf (floatDiv r_max dr) (one_le_roundToFloat h1)).2 hfit

/-- When rounding the quotient to `float` keeps its floor and that floor fits an `int`, the
constructor computes the floor of the quotient. -/
theorem nbinsOf_eq_floor {r_max dr : ℚ} (hdr : 0 < dr) (hle : dr ≤ r_max)
    (hfloor : ⌊floatDiv r_max dr⌋ = ⌊r_max / dr⌋) (hfit : ⌊r_max / dr⌋ < (2 : ℤ) ^ 31) :
    (nbinsOf r_max dr : ℤ) = ⌊r_max / dr⌋ := by
  rw [← hfloor] at hfit ⊢
  exact nbinsOf_eq_floor_floatDiv hdr hle hfit

theorem floatDiv_two_one : floatDiv 2 1 = 2 / 1 := by
  unfold floatDiv
  have he : Int.log 2 ((2 : ℚ) / 1) = 1 := log_two_eq _ 1 (by norm_num) (by norm_num)
  rw [roundToFloat_eq _ 1 (2 ^ 23) he (by norm_num) (by norm_num)]
  norm_num

/-- The quotient `1.0f / 0.1f` rounds to `10.0f`, above the exact quotient. -/
theorem floatDiv_one_tenth : floatDiv 1 floatTenth = 10 := by
  unfold floatDiv floatTenth
  have he : Int.log 2 ((1 : ℚ) / (13421773 / 134217728)) = 3 :=
    log_two_eq _ 3 (by norm_num) (by norm_num)
  rw [roundToFloat_eq _ 3 10485760 he (by norm_num) (by norm_num)]
  norm_num

theorem floor_one_tenth : ⌊(1 : ℚ) / floatTenth⌋ = 9 := by
  unfold floatTenth
  rw [Int.floor_eq_iff]
  norm_num

theorem floatTenth_valid : (0 : ℚ) < floatTenth ∧ floatTenth ≤ 1 := by
  unfold floatTenth
  norm_num

theorem nbinsOf_one_tenth : nbinsOf 1 floatTenth = 10 := by
  have hfl : ⌊floatDiv 1 floatTenth⌋ = 10 := by
    rw [floatDiv_one_tenth, Int.floor_eq_iff]
    norm_num
  have h := nbinsOf_eq_floor_floatDiv floatTenth_valid.1 floatTenth_valid.2
    (by rw [hfl]; norm_num)
  rw [hfl] at h
  exact_mod_cast h

theorem new_ok_of_valid (T : Type) [Zero T] {r_max dr : ℚ} (hdr : 0 < dr) (hle : dr ≤ r_max) :
    CorrelationFunction.new T r_max dr = .ok
      { m_reduce := true
        m_histogram := Histogram.ofAxes [RegularAxis.mk (nbinsOf r_max dr) 0 r_max]
        m_local_histograms := ThreadLocalHistogram.ofHistogram
          (Histogram.ofAxes [RegularAxis.mk (nbinsOf r_max dr) 0 r_max])
        m_r_max := r_max
        m_dr := dr
        m_correlation_function := Histogram.ofAxes [RegularAxis.mk (nbinsOf r_max dr) 0 r_max]
        m_local_correlation_function := ThreadLocalHistogram.ofHistogram
          (Histogram.ofAxes [RegularAxis.mk (nbinsOf r_max dr) 0 r_max]) } := by
  have h1 : ¬ dr ≤ 0 := not_le.mpr hdr
  have h2 : ¬ r_max ≤ 0 := not_le.mpr (lt_of_lt_of_le hdr hle)
  have h3 : ¬ dr > r_max := not_lt.mpr hle
  simp only [CorrelationFunction.new, h1, h2, h3, if_false]

theorem valid_of_new_ok (T : Type) [Zero T] {r_max dr : ℚ} {cf : CorrelationFunction T}
    (h : CorrelationFunction.new T r_max dr = .ok cf) : 0 < dr ∧ dr ≤ r_max := by
  unfold CorrelationFunction.new at h
  by_cases h1 : dr ≤ 0
  · simp [h1] at h
  · by_cases h2 : r_max ≤ 0
    · simp [h1, h2] at h
    · by_cases h3 : dr > r_max
      · simp [h1, h2, h3] at h
      · exact ⟨not_le.mp h1, not_lt.mp h3⟩

section normalize
variable {T : Type} [Field T]

/-- The finishing function never fails: the division is guarded by the count. -/
theorem CorrelationFunction.normalizeBin_eq (counts : Histogram UnsignedInt) (i : Nat)
    (self : Histogram T) :
    CorrelationFunction.normalizeBin counts i self
      = some (if counts.get i ≠ 0 then
          self.put i (self.get i / (((counts.get i).val : Nat) : T))
        else self) := by
  unfold CorrelationFunction.normalizeBin divByCount
  by_cases h : counts.get i = 0
  · simp [h]
  · simp [h]

theorem foldl_normalize (counts : Histogram UnsignedInt) (k : Nat) (h0 : Histogram T) :
    let r := (List.range k).foldl
      (fun acc i =>
        if counts.get i ≠ 0 then acc.put i (acc.get i / (((counts.get i).val : Nat) : T))
        else acc) h0
    r.axes = h0.axes ∧ r.size = h0.size ∧
      ∀ j, j < h0.size → r.get j =
        if j < k ∧ counts.get j ≠ 0 then h0.get j / (((counts.get j).val : Nat) : T)
        else h0.get j := by
  induction k with
  | zero => simp
  | succ k ih =>
    obtain ⟨ihax, ihsz, ihget⟩ := ih
    simp only [List.range_succ, List.foldl_append, List.foldl_cons, List.foldl_nil]
    by_cases hc : counts.get k = 0
    · simp only [hc, ne_eq, not_true_eq_false, if_false]
      refine ⟨ihax, ihsz, ?_⟩
      intro j hj
      rw [ihget j hj]
      by_cases hjk : j = k
      · subst hjk; simp [hc]
      · have : (j < k + 1) ↔ (j < k) := by omega
        simp [this]
    · simp only [ne_eq, hc, not_false_eq_true, if_true]
      refine ⟨ihax, by rw [Histogram.size_put]; exact ihsz, ?_⟩
      intro j hj
      rw [Histogram.get_put]
      by_cases hjk : k = j
      · subst hjk
        have hlt : k < ((List.range k).foldl
            (fun acc i =>
              if counts.get i ≠ 0 then acc.put i (acc.get i / (((counts.get i).val : Nat) : T))
              else acc)
            h0).size := by rw [ihsz]; exact hj
        simp only [true_and, hlt, if_true]
        rw [ihget k hj]
        simp [hc]
      · have h1 : ¬ (k = j ∧ k < ((List.range k).foldl
            (fun acc i =>
              if counts.get i ≠ 0 then acc.put i (acc.get i / (((counts.get i).val : Nat) : T))
              else acc)
            h0).size) := fun h => hjk h.1
        rw [if_neg h1, ihget j hj]
        have : (j < k + 1) ↔ (j < k) := by omega
        simp [this]

end normalize

theorem CorrelationFunction.eq_of_fields {T : Type} {a b : CorrelationFunction T}
    (h1 : a.m_reduce = b.m_reduce) (h2 : a.m_histogram = b.m_histogram)
    (h3 : a.m_local_histograms = b.m_local_histograms) (h4 : a.m_r_max = b.m_r_max)
    (h5 : a.m_dr = b.m_dr) (h6 : a.m_correlation_function = b.m_correlation_function)
    (h7 : a.m_local_correlation_function = b.m_local_correlation_function) : a = b := by
  obtain ⟨⟨_, _, _⟩, _, _, _, _⟩ := a
  obtain ⟨⟨_, _, _⟩, _, _, _, _⟩ := b
  simp only at h1 h2 h3 h4 h5 h6 h7
  subst h1 h2 h3 h4 h5 h6 h7
  rfl

section reduce
variable {T : Type} [Field T]

/-- Function `reduce` always returns, and what it returns is described by `ReducedFrom`. -/
theorem CorrelationFunction.reduce_spec (cf : CorrelationFunction T) :
    ∃ s, cf.reduce = some s ∧ CorrelationFunction.ReducedFrom cf s := by
  have hfold := foldl_normalize (T := T)
    (cf.m_histogram.reset.reduceOverThreads cf.m_local_histograms)
    cf.m_correlation_function.reset.size
    (cf.m_correlation_function.reset.reduceOverThreads cf.m_local_correlation_function)
  obtain ⟨hax, hsz, hget⟩ := hfold
  have hfun : (fun (acc : Histogram T) i =>
      CorrelationFunction.normalizeBin
        (cf.m_histogram.reset.reduceOverThreads cf.m_local_histograms) i acc)
      = fun acc i => some
        (if (cf.m_histogram.reset.reduceOverThreads cf.m_local_histograms).get i ≠ 0 then
          acc.put i (acc.get i /
            ((((cf.m_histogram.reset.reduceOverThreads cf.m_local_histograms).get i).val : Nat) : T))
        else acc) := by
    funext acc i
    exact CorrelationFunction.normalizeBin_eq _ i acc
  have hred : cf.reduce = some
      { cf with
        m_histogram := cf.m_histogram.reset.reduceOverThreads cf.m_local_histograms
        m_correlation_function := (List.range cf.m_correlation_function.reset.size).foldl
          (fun acc i =>
            if (cf.m_histogram.reset.reduceOverThreads cf.m_local_histograms).get i ≠ 0 then
              acc.put i (acc.get i /
                ((((cf.m_histogram.reset.reduceOverThreads cf.m_local_histograms).get i).val : Nat) : T))
            else acc)
          (cf.m_correlation_function.reset.reduceOverThreads
            cf.m_local_correlation_function) } := by
    unfold CorrelationFunction.reduce Histogram.reduceOverThreadsPerBin
    simp only [hfun, foldlM_option_some, Option.map_some']
  refine ⟨_, hred, ?_⟩
  · have hcs : (cf.m_histogram.reset.reduceOverThreads cf.m_local_histograms).size
        = cf.m_histogram.size := by
      rw [Histogram.size_reduceOverThreads, Histogram.size_reset]
    have hvs : (cf.m_correlation_function.reset.reduceOverThreads
        cf.m_local_correlation_function).size = cf.m_correlation_function.size := by
      rw [Histogram.size_reduceOverThreads, Histogram.size_reset]
    constructor
    · rfl
    · rfl
    · rfl
    · rfl
    · rfl
    · show (cf.m_histogram.reset.reduceOverThreads cf.m_local_histograms).axes = _
      rw [Histogram.axes_reduceOverThreads]; rfl
    · exact hcs
    · intro i hi
      show (cf.m_histogram.reset.reduceOverThreads cf.m_local_histograms).get i = _
      exact Histogram.get_reduceOverThreads _ _ (by rw [Histogram.size_reset]; exact hi)
    · simp only []
      rw [hax, Histogram.axes_reduceOverThreads]; rfl
    · simp only []
      rw [hsz, hvs]
    · intro i hi
      simp only []
      rw [hget i (by rw [hvs]; exact hi)]
      have hlt : i < cf.m_correlation_function.reset.size := by
        rw [Histogram.size_reset]; exact hi
      rw [Histogram.get_reduceOverThreads _ _ hlt]
      simp only [hlt, true_and]

theorem CorrelationFunction.ReducedFrom.unique {cf s s' : CorrelationFunction T}
    (h : CorrelationFunction.ReducedFrom cf s) (h' : CorrelationFunction.ReducedFrom cf s') :
    s = s' := by
  have hc : s.m_histogram = s'.m_histogram := by
    apply Histogram.ext_get
    · rw [h.count_axes, h'.count_axes]
    · rw [h.count_size, h'.count_size]
    · intro i hi
      rw [h.count_size] at hi
      rw [h.count_get i hi, h'.count_get i hi]
  apply CorrelationFunction.eq_of_fields
  · rw [h.reduce_eq, h'.reduce_eq]
  · exact hc
  · rw [h.local_count_eq, h'.local_count_eq]
  · rw [h.r_max_eq, h'.r_max_eq]
  · rw [h.dr_eq, h'.dr_eq]
  · apply Histogram.ext_get
    · rw [h.value_axes, h'.value_axes]
    · rw [h.value_size, h'.value_size]
    · intro i hi
      rw [h.value_size] at hi
      rw [h.value_get i hi, h'.value_get i hi, hc]
  · rw [h.local_value_eq, h'.local_value_eq]

/-- Reducing a reduced state: the description of the first reduction also describes the
second. -/
theorem CorrelationFunction.ReducedFrom.again {cf s : CorrelationFunction T}
    (h : CorrelationFunction.ReducedFrom cf s) : CorrelationFunction.ReducedFrom s s := by
  constructor
  · rfl
  · rfl
  · rfl
  · rfl
  · rfl
  · rfl
  · rfl
  · intro i hi
    rw [h.count_size] at hi
    rw [h.count_get i hi, h.local_count_eq]
  · rfl
  · rfl
  · intro i hi
    rw [h.value_size] at hi
    rw [h.value_get i hi, h.local_value_eq]

end reduce
section pairs
variable {T : Type} [Field T]

theorem LocalPair.incrementLocal_paired {a : RegularAxis} {pc : Histogram UnsignedInt}
    {pv : Histogram T} (hpc : pc.Shaped a) (hpv : pv.Shaped a) (t bin : Nat) (delta : T)
    {cl : List (Nat × Histogram UnsignedInt)} {vl : List (Nat × Histogram T)}
    (h : List.Forall₂ (LocalPair a) cl vl) :
    List.Forall₂ (LocalPair a) (ThreadLocalHistogram.incrementLocal pc t bin 1 cl)
      (ThreadLocalHistogram.incrementLocal pv t bin delta vl) := by
  induction h with
  | nil =>
    unfold ThreadLocalHistogram.incrementLocal
    exact List.Forall₂.cons ⟨rfl, hpc.put_shaped _ _, hpv.put_shaped _ _⟩ List.Forall₂.nil
  | @cons c v cl vl hcv _ ih =>
    obtain ⟨u, hc⟩ := c
    obtain ⟨u', hv⟩ := v
    obtain ⟨huu, hcs, hvs⟩ := hcv
    simp only at huu hcs hvs
    subst huu
    unfold ThreadLocalHistogram.incrementLocal
    by_cases hu : u = t
    · simp only [hu, if_true]
      exact List.Forall₂.cons ⟨rfl, hcs.put_shaped _ _, hvs.put_shaped _ _⟩ (by assumption)
    · simp only [hu, if_false]
      exact List.Forall₂.cons ⟨rfl, hcs, hvs⟩ ih

theorem LocalPair.size_left {U : Type} {a : RegularAxis} {cl : List (Nat × Histogram UnsignedInt)}
    {vl : List (Nat × Histogram U)} (h : List.Forall₂ (LocalPair a) cl vl) :
    ∀ p ∈ cl, p.2.size = a.nbins := by
  induction h with
  | nil => intro p hp; cases hp
  | cons hcv _ ih =>
    intro p hp
    rcases List.mem_cons.mp hp with rfl | hp
    · exact hcv.2.1.2
    · exact ih p hp

theorem LocalPair.size_right {U : Type} {a : RegularAxis} {cl : List (Nat × Histogram UnsignedInt)}
    {vl : List (Nat × Histogram U)} (h : List.Forall₂ (LocalPair a) cl vl) :
    ∀ p ∈ vl, p.2.size = a.nbins := by
  induction h with
  | nil => intro p hp; cases hp
  | cons hcv _ ih =>
    intro p hp
    rcases List.mem_cons.mp hp with rfl | hp
    · exact hcv.2.2.2
    · exact ih p hp

theorem LocalPair.reset_paired {a : RegularAxis} {cl : List (Nat × Histogram UnsignedInt)}
    {vl : List (Nat × Histogram T)} (h : List.Forall₂ (LocalPair a) cl vl) :
    List.Forall₂ (LocalPair a) (cl.map (fun p => (p.1, p.2.reset)))
      (vl.map (fun p => (p.1, p.2.reset))) := by
  induction h with
  | nil => exact List.Forall₂.nil
  | cons hcv _ ih =>
    simp only [List.map_cons]
    exact List.Forall₂.cons ⟨hcv.1, hcv.2.1.reset_shaped, hcv.2.2.reset_shaped⟩ ih

end pairs

end freud.density

namespace freud.density
open util locality

section accumulate
variable {T : Type} [Field T]

theorem CorrelationFunction.Inv.of_new {r_max dr : ℚ} {cf : CorrelationFunction T}
    (h : CorrelationFunction.new T r_max dr = .ok cf) :
    0 < dr ∧ dr ≤ r_max ∧ cf.Inv ⟨nbinsOf r_max dr, 0, r_max⟩ ∧
      cf.m_local_histograms.local_histograms = [] ∧
      cf.m_local_correlation_function.local_histograms = [] := by
  have hv := valid_of_new_ok T h
  rw [new_ok_of_valid T hv.1 hv.2] at h
  injection h with h
  subst h
  refine ⟨hv.1, hv.2, ?_, rfl, rfl⟩
  constructor
  · exact Histogram.Shaped.ofAxes_shaped _
  · exact Histogram.Shaped.ofAxes_shaped _
  · exact Histogram.Shaped.ofAxes_shaped _
  · exact fun i => Histogram.get_ofAxes _ i
  · exact Histogram.Shaped.ofAxes_shaped _
  · exact fun i => Histogram.get_ofAxes _ i
  · exact List.Forall₂.nil

theorem CorrelationFunction.Inv.bondCallback_inv {cf : CorrelationFunction T} {a : RegularAxis}
    (h : cf.Inv a) (values query_values : Nat → T) (t : Nat) (nb : NeighborBond) :
    (CorrelationFunction.bondCallback values query_values cf t nb).Inv a := by
  constructor
  · exact h.count
  · exact h.value
  · exact h.count_proto
  · exact h.count_proto_zero
  · exact h.value_proto
  · exact h.value_proto_zero
  · exact LocalPair.incrementLocal_paired h.count_proto h.value_proto t _ _ h.paired

theorem CorrelationFunction.Inv.reset_inv {cf : CorrelationFunction T} {a : RegularAxis}
    (h : cf.Inv a) : cf.reset.Inv a := by
  constructor
  · exact h.count
  · exact h.value
  · exact h.count_proto
  · exact h.count_proto_zero
  · exact h.value_proto
  · exact h.value_proto_zero
  · exact LocalPair.reset_paired h.paired

theorem CorrelationFunction.Inv.reduced_inv {cf s : CorrelationFunction T} {a : RegularAxis}
    (h : cf.Inv a) (hr : CorrelationFunction.ReducedFrom cf s) : s.Inv a := by
  constructor
  · exact ⟨hr.count_axes.trans h.count.1, hr.count_size.trans h.count.2⟩
  · exact ⟨hr.value_axes.trans h.value.1, hr.value_size.trans h.value.2⟩
  · rw [hr.local_count_eq]; exact h.count_proto
  · rw [hr.local_count_eq]; exact h.count_proto_zero
  · rw [hr.local_value_eq]; exact h.value_proto
  · rw [hr.local_value_eq]; exact h.value_proto_zero
  · rw [hr.local_count_eq, hr.local_value_eq]; exact h.paired

/-- The effect of the bond loop on the per-bin totals over the threads: every bond adds one to
the count total and its product to the value total of the bin the axis computes for it. -/
theorem CorrelationFunction.foldl_bondCallback {a : RegularAxis} (values query_values : Nat → T)
    (bonds : Schedule) (cf : CorrelationFunction T) (h : cf.Inv a) :
    let s := bonds.foldl
      (fun s p => CorrelationFunction.bondCallback values query_values s p.1 p.2) cf
    s.Inv a ∧ s.m_histogram = cf.m_histogram ∧
      s.m_correlation_function = cf.m_correlation_function ∧
      s.m_r_max = cf.m_r_max ∧ s.m_dr = cf.m_dr ∧
      ∀ i, i < a.nbins →
        s.m_local_histograms.total i = cf.m_local_histograms.total i
          + (bonds.map Prod.snd).countP (fun nb => a.bin nb.distance = i) ∧
        s.m_local_correlation_function.total i = cf.m_local_correlation_function.total i
          + (((bonds.map Prod.snd).filter (fun nb => a.bin nb.distance = i)).map
              (fun nb => values nb.ref_id * query_values nb.id)).sum := by
  induction bonds generalizing cf with
  | nil => simp [h]
  | cons p bonds ih =>
    obtain ⟨t, nb⟩ := p
    have h1 := h.bondCallback_inv values query_values t nb
    obtain ⟨hinv, hc, hv, hr, hd, htot⟩ := ih _ h1
    simp only [List.foldl_cons]
    refine ⟨hinv, hc, hv, hr, hd, ?_⟩
    intro i hi
    obtain ⟨ht1, ht2⟩ := htot i hi
    have hbin : cf.m_histogram.bin [nb.distance] = a.bin nb.distance :=
      Histogram.bin_single _ a _ h.count.1
    have hc1 : (CorrelationFunction.bondCallback values query_values cf t
        nb).m_local_histograms.total i
        = cf.m_local_histograms.total i + if a.bin nb.distance = i then 1 else 0 := by
      show (cf.m_local_histograms.increment t (cf.m_histogram.bin [nb.distance]) 1).total i = _
      rw [hbin]
      exact ThreadLocalHistogram.total_increment _ h.count_proto.2 h.count_proto_zero
        (LocalPair.size_left h.paired) t _ 1 hi
    have hv1 : (CorrelationFunction.bondCallback values query_values cf t
        nb).m_local_correlation_function.total i
        = cf.m_local_correlation_function.total i
          + if a.bin nb.distance = i then values nb.ref_id * query_values nb.id else 0 := by
      show (cf.m_local_correlation_function.increment t (cf.m_histogram.bin [nb.distance])
        (values nb.ref_id * query_values nb.id)).total i = _
      rw [hbin]
      exact ThreadLocalHistogram.total_increment _ h.value_proto.2 h.value_proto_zero
        (LocalPair.size_right h.paired) t _ _ hi
    constructor
    · rw [ht1, hc1]
      simp only [List.map_cons, List.countP_cons]
      by_cases hb : a.bin nb.distance = i
      · simp [hb]; ring
      · simp [hb]
    · rw [ht2, hv1]
      simp only [List.map_cons, List.filter_cons]
      by_cases hb : a.bin nb.distance = i
      · simp [hb, add_assoc]
      · simp [hb]

end accumulate
end freud.density

namespace freud.util

theorem RegularAxis.decide_bin_eq {a : RegularAxis} (hn : 0 < a.nbins) (hlt : a.min < a.max)
    {x : ℚ} (hx : a.min ≤ x) (b : Nat) : decide (a.bin x = b) = a.inBin b x := by
  unfold RegularAxis.inBin
  exact decide_eq_decide.mpr (RegularAxis.bin_eq_iff hn hlt hx b)

theorem Histogram.bin_counts_eq_replicate {V : Type} [Zero V] {h : Histogram V} {n : Nat}
    (hs : h.size = n) (hz : ∀ i, i < n → h.get i = 0) : h.bin_counts = List.replicate n 0 := by
  unfold Histogram.size at hs
  apply List.ext_getElem (by simp [hs])
  intro i h1 h2
  have := hz i (hs ▸ h1)
  unfold Histogram.get at this
  simpa [List.getD_eq_getElem?_getD, List.getElem?_eq_getElem h1] using this

end freud.util

namespace freud.density
open util locality

section pipeline
variable {T : Type} [Field T]

theorem CorrelationFunction.accumulate_eq (cf : CorrelationFunction T)
    (values query_values : Nat → T) (bonds : Schedule) :
    cf.accumulate values query_values bonds =
      { bonds.foldl (fun s p => CorrelationFunction.bondCallback values query_values s p.1 p.2)
          cf with m_reduce := true } := rfl

theorem CorrelationFunction.Inv.accumulate_inv {cf : CorrelationFunction T} {a : RegularAxis}
    (h : cf.Inv a) (values query_values : Nat → T) (bonds : Schedule) :
    (cf.accumulate values query_values bonds).Inv a := by
  obtain ⟨hinv, -⟩ := CorrelationFunction.foldl_bondCallback values query_values bonds cf h
  rw [CorrelationFunction.accumulate_eq]
  exact ⟨hinv.count, hinv.value, hinv.count_proto, hinv.count_proto_zero, hinv.value_proto,
    hinv.value_proto_zero, hinv.paired⟩

theorem CorrelationFunction.Reachable.inv {r_max dr : ℚ} {cf : CorrelationFunction T}
    (h : CorrelationFunction.Reachable r_max dr cf) :
    0 < dr ∧ dr ≤ r_max ∧ cf.Inv ⟨nbinsOf r_max dr, 0, r_max⟩ := by
  induction h with
  | new hnew =>
    obtain ⟨h1, h2, h3, -⟩ := CorrelationFunction.Inv.of_new hnew
    exact ⟨h1, h2, h3⟩
  | accumulate values query_values bonds _ _ ih =>
    exact ⟨ih.1, ih.2.1, ih.2.2.accumulate_inv values query_values bonds⟩
  | reset _ ih => exact ⟨ih.1, ih.2.1, ih.2.2.reset_inv⟩
  | @reduce cf s _ hred ih =>
    obtain ⟨s', hs, hspec⟩ := CorrelationFunction.reduce_spec cf
    rw [hred] at hs
    injection hs with hs
    subst hs
    exact ⟨ih.1, ih.2.1, ih.2.2.reduced_inv hspec⟩

/-- The per-bin totals over the threads after `accumulate`, in terms of the bins the axis
computes. -/
theorem CorrelationFunction.totals_accumulate {a : RegularAxis} {cf : CorrelationFunction T}
    (h : cf.Inv a) (values query_values : Nat → T) (bonds : Schedule) {i : Nat}
    (hi : i < a.nbins) :
    (cf.accumulate values query_values bonds).m_local_histograms.total i
        = cf.m_local_histograms.total i
          + (bonds.map Prod.snd).countP (fun nb => a.bin nb.distance = i) ∧
    (cf.accumulate values query_values bonds).m_local_correlation_function.total i
        = cf.m_local_correlation_function.total i
          + (((bonds.map Prod.snd).filter (fun nb => a.bin nb.distance = i)).map
              (fun nb => values nb.ref_id * query_values nb.id)).sum := by
  obtain ⟨-, -, -, -, -, htot⟩ :=
    CorrelationFunction.foldl_bondCallback values query_values bonds cf h
  exact htot i hi

/-- The canonical histograms after `reduce`, bin by bin, in a state that satisfies the
invariant. -/
theorem CorrelationFunction.reduce_get {a : RegularAxis} {cf : CorrelationFunction T}
    (h : cf.Inv a) :
    ∃ s, cf.reduce = some s ∧ CorrelationFunction.ReducedFrom cf s ∧
      ∀ i, i < a.nbins →
        s.m_histogram.get i = cf.m_local_histograms.total i ∧
        s.m_correlation_function.get i =
          if cf.m_local_histograms.total i ≠ 0 then
            cf.m_local_correlation_function.total i
              / (((cf.m_local_histograms.total i).val : Nat) : T)
          else cf.m_local_correlation_function.total i := by
  obtain ⟨s, hs, hspec⟩ := CorrelationFunction.reduce_spec cf
  refine ⟨s, hs, hspec, ?_⟩
  intro i hi
  have hc := hspec.count_get i (by rw [h.count.2]; exact hi)
  refine ⟨hc, ?_⟩
  rw [hspec.value_get i (by rw [h.value.2]; exact hi), hc]

theorem CorrelationFunction.total_of_new {r_max dr : ℚ} {cf : CorrelationFunction T}
    (h : CorrelationFunction.new T r_max dr = .ok cf) (i : Nat) :
    cf.m_local_histograms.total i = 0 ∧ cf.m_local_correlation_function.total i = 0 := by
  obtain ⟨-, -, -, h1, h2⟩ := CorrelationFunction.Inv.of_new h
  simp [ThreadLocalHistogram.total, h1, h2]

theorem countP_bin_eq_inBin {a : RegularAxis} (hn : 0 < a.nbins) (hlt : a.min < a.max)
    (l : List NeighborBond) (hl : ∀ nb ∈ l, a.min ≤ nb.distance) (b : Nat) :
    l.countP (fun nb => a.bin nb.distance = b) = l.countP (fun nb => a.inBin b nb.distance) := by
  apply List.countP_congr
  intro nb hnb
  rw [RegularAxis.decide_bin_eq hn hlt (hl nb hnb) b]

theorem filter_bin_eq_inBin {a : RegularAxis} (hn : 0 < a.nbins) (hlt : a.min < a.max)
    (l : List NeighborBond) (hl : ∀ nb ∈ l, a.min ≤ nb.distance) (b : Nat) :
    l.filter (fun nb => a.bin nb.distance = b) = l.filter (fun nb => a.inBin b nb.distance) := by
  apply List.filter_congr
  intro nb hnb
  rw [RegularAxis.decide_bin_eq hn hlt (hl nb hnb) b]

end pipeline
end freud.density

namespace freud.density
open util locality

theorem countP_contributions {T : Type} (a : RegularAxis) (values query_values : Nat → T)
    (bonds : Schedule) (i : Nat) :
    (bonds.map Prod.snd).countP (fun nb => a.bin nb.distance = i)
      = (contributions values query_values bonds).countP (fun c => a.bin c.1 = i) := by
  unfold contributions
  rw [List.countP_map, List.countP_map]
  rfl

section batches
variable {T : Type} [Field T]

theorem sum_contributions (a : RegularAxis) (values query_values : Nat → T)
    (bonds : Schedule) (i : Nat) :
    (((bonds.map Prod.snd).filter (fun nb => a.bin nb.distance = i)).map
        (fun nb => values nb.ref_id * query_values nb.id)).sum
      = (((contributions values query_values bonds).filter (fun c => a.bin c.1 = i)).map
          (fun c => c.2.1 * c.2.2)).sum := by
  unfold contributions
  rw [List.filter_map, List.filter_map, List.map_map, List.map_map]
  rfl

end batches
end freud.density

namespace freud.density
open util locality

theorem floor_two : nbinsOf 2 1 = 2 := by
  have h := @nbinsOf_eq_floor 2 1 (by norm_num) (by norm_num)
    (by rw [floatDiv_two_one]) (by
      have : ⌊(2 : ℚ) / 1⌋ = 2 := by rw [Int.floor_eq_iff]; norm_num
      rw [this]; norm_num)
  have h2 : ⌊(2 : ℚ) / 1⌋ = 2 := by rw [Int.floor_eq_iff]; norm_num
  rw [h2] at h
  exact_mod_cast h

theorem scenario_new : CorrelationFunction.new ℚ 2 1 = .ok scenario := by
  rw [new_ok_of_valid ℚ (by norm_num) (by norm_num), floor_two]
  rfl

theorem scenarioBonds_range : ∀ p ∈ scenarioBonds, 0 ≤ p.2.distance ∧ p.2.distance < 2 := by
  intro p hp
  simp only [scenarioBonds, List.mem_cons, List.mem_singleton, List.not_mem_nil, or_false] at hp
  rcases hp with rfl | rfl | rfl <;> norm_num

theorem scenarioOneBond_range :
    ∀ p ∈ scenarioOneBond, 0 ≤ p.2.distance ∧ p.2.distance < 2 := by
  intro p hp
  simp only [scenarioOneBond, List.mem_singleton] at hp
  subst hp
  norm_num

theorem bin_counts_eq_pair {V : Type} [Zero V] {h : Histogram V} (hs : h.size = 2) :
    h.bin_counts = [h.get 0, h.get 1] := by
  unfold Histogram.size at hs
  unfold Histogram.get
  match hl : h.bin_counts, hs with
  | [x, y], _ => simp

end freud.density

namespace freud.density
open util locality

/-- C4: the constructor fails with an invalid-argument error exactly when `dr ≤ 0`, `r_max ≤ 0`
or `dr > r_max`, and it returns an object exactly when `0 < dr ≤ r_max`, which is every other
pair. -/
theorem CorrelationFunction.new_error_iff_invalid (T : Type) [Zero T] (r_max dr : ℚ) :
    ((dr ≤ 0 ∨ r_max ≤ 0 ∨ dr > r_max) ↔
        ∃ msg, CorrelationFunction.new T r_max dr = .error (.invalid_argument msg)) ∧
    ((0 < dr ∧ dr ≤ r_max) ↔ ∃ cf, CorrelationFunction.new T r_max dr = .ok cf) ∧
    ((∃ cf, CorrelationFunction.new T r_max dr = .ok cf) ↔ ¬ (dr ≤ 0 ∨ r_max ≤ 0 ∨ dr > r_max)) := by
  by_cases h1 : dr ≤ 0
  · have : ¬ 0 < dr := not_lt.mpr h1
    simp [CorrelationFunction.new, h1, this]
  · by_cases h2 : r_max ≤ 0
    · have : ¬ dr ≤ r_max := fun h => h1 (le_trans h h2)
      simp [CorrelationFunction.new, h1, h2, this]
    · by_cases h3 : dr > r_max
      · have : ¬ dr ≤ r_max := not_le.mpr h3
        simp [CorrelationFunction.new, h1, h2, h3, this]
      · have h4 : dr ≤ r_max := not_lt.mp h3
        have h5 : 0 < dr := not_le.mp h1
        simp [CorrelationFunction.new, h1, h2, h3, h4, h5]

theorem val_natCast_unsigned (n : Nat) : ((n : Nat) : UnsignedInt).val = n % 2 ^ 32 :=
  Fin.val_natCast n (2 ^ 32)

theorem val_natCast_of_lt {n : Nat} (h : n < 2 ^ 32) : ((n : Nat) : UnsignedInt).val = n := by
  rw [val_natCast_unsigned]
  exact Nat.mod_eq_of_lt h

theorem natCast_eq_zero_of_lt {n : Nat} (h : n < 2 ^ 32) (h0 : ((n : Nat) : UnsignedInt) = 0) :
    n = 0 := by
  have := congrArg Fin.val h0
  rw [val_natCast_of_lt h] at this
  exact this

/-- The pipeline on a fresh object, bin by bin: the count cell holds the number of bonds in the
range of the bin, as an `unsigned int`, and the value is the sum of their products, divided by
the stored count unless that is zero. -/
theorem CorrelationFunction.accumulate_reduce_new {T : Type} [Field T] {r_max dr : ℚ}
    {cf : CorrelationFunction T} (hnew : CorrelationFunction.new T r_max dr = .ok cf)
    (values query_values : Nat → T) (bonds : Schedule)
    (hrange : ∀ p ∈ bonds, 0 ≤ p.2.distance ∧ p.2.distance < r_max) :
    ∃ s, (cf.accumulate values query_values bonds).reduce = some s ∧
      s.m_histogram.size = nbinsOf r_max dr ∧
      s.m_correlation_function.size = nbinsOf r_max dr ∧
      ∀ b, b < nbinsOf r_max dr →
        s.m_histogram.get b = (((bonds.map Prod.snd).countP
          (fun nb => (RegularAxis.mk (nbinsOf r_max dr) 0 r_max).inBin b nb.distance) : Nat) :
            UnsignedInt) ∧
        s.m_correlation_function.get b =
          if s.m_histogram.get b = 0 then
            (((bonds.map Prod.snd).filter
                (fun nb => (RegularAxis.mk (nbinsOf r_max dr) 0 r_max).inBin b
                  nb.distance)).map
              (fun nb => values nb.ref_id * query_values nb.id)).sum
          else
            (((bonds.map Prod.snd).filter
                (fun nb => (RegularAxis.mk (nbinsOf r_max dr) 0 r_max).inBin b
                  nb.distance)).map
              (fun nb => values nb.ref_id * query_values nb.id)).sum
            / (((s.m_histogram.get b).val : Nat) : T) := by
  obtain ⟨hdr, hle, hinv, -⟩ := CorrelationFunction.Inv.of_new hnew
  have hn : 0 < (RegularAxis.mk (nbinsOf r_max dr) 0 r_max).nbins := nbins_pos hdr hle
  have hlt : (RegularAxis.mk (nbinsOf r_max dr) 0 r_max).min
      < (RegularAxis.mk (nbinsOf r_max dr) 0 r_max).max := lt_of_lt_of_le hdr hle
  have hl : ∀ nb ∈ bonds.map Prod.snd,
      (RegularAxis.mk (nbinsOf r_max dr) 0 r_max).min ≤ nb.distance := by
    intro nb hnb
    obtain ⟨p, hp, rfl⟩ := List.mem_map.mp hnb
    exact (hrange p hp).1
  have hacc := hinv.accumulate_inv values query_values bonds
  obtain ⟨s, hs, hspec, hget⟩ := CorrelationFunction.reduce_get hacc
  refine ⟨s, hs, hspec.count_size.trans hacc.count.2, hspec.value_size.trans hacc.value.2, ?_⟩
  intro b hb
  obtain ⟨hc, hv⟩ := hget b hb
  obtain ⟨ht1, ht2⟩ := CorrelationFunction.totals_accumulate hinv values query_values bonds hb
  obtain ⟨hz1, hz2⟩ := CorrelationFunction.total_of_new hnew b
  rw [hz1, zero_add, countP_bin_eq_inBin hn hlt _ hl] at ht1
  rw [hz2, zero_add, filter_bin_eq_inBin hn hlt _ hl] at ht2
  refine ⟨hc.trans ht1, ?_⟩
  rw [hv, ← hc, ht2]
  by_cases h0 : s.m_histogram.get b = 0
  · rw [if_neg (not_not.mpr h0), if_pos h0]
  · rw [if_pos h0, if_neg h0]

theorem scenarioManyBonds_range :
    ∀ p ∈ scenarioManyBonds, 0 ≤ p.2.distance ∧ p.2.distance < 2 := by
  intro p hp
  rw [List.eq_of_mem_replicate hp]
  norm_num

theorem scenario_inBin_half_zero : (RegularAxis.mk 2 0 2).inBin 0 (1 / 2) = true := by
  simp [RegularAxis.inBin, RegularAxis.bin_width]
  norm_num

theorem scenario_inBin_half_one : (RegularAxis.mk 2 0 2).inBin 1 (1 / 2) = false := by
  simp [RegularAxis.inBin, RegularAxis.bin_width]
  norm_num

/-- All `2 ^ 32` bonds of the large batch fall in the range of bin 0 of the scenario. -/
theorem countP_scenarioManyBonds_zero :
    (scenarioManyBonds.map Prod.snd).countP
      (fun nb => (RegularAxis.mk 2 0 2).inBin 0 nb.distance) = 4294967296 := by
  unfold scenarioManyBonds
  rw [List.map_replicate, List.countP_replicate]
  simp only [scenario_inBin_half_zero, if_true]
  norm_num

theorem countP_scenarioManyBonds_one :
    (scenarioManyBonds.map Prod.snd).countP
      (fun nb => (RegularAxis.mk 2 0 2).inBin 1 nb.distance) = 0 := by
  unfold scenarioManyBonds
  rw [List.map_replicate, List.countP_replicate]
  simp only [scenario_inBin_half_one, Bool.false_eq_true, if_false]

theorem natCast_two_pow_unsigned : ((4294967296 : Nat) : UnsignedInt) = 0 := by
  apply Fin.ext
  rw [val_natCast_unsigned]
  rfl

/-- The large batch in the scenario: after `reduce` the count cell of bin 0 has wrapped to 0 and
the value cell of bin 0 keeps the undivided sum of the `2 ^ 32` products `2 * 1`. -/
theorem scenarioManyBonds_reduce :
    ∃ s, (scenario.accumulate scenarioValues scenarioQueryValues scenarioManyBonds).reduce
        = some s ∧
      s.m_histogram.bin_counts = [0, 0] ∧
      s.m_correlation_function.bin_counts = [8589934592, 0] := by
  obtain ⟨s, hs, hcs, hvs, hget⟩ := CorrelationFunction.accumulate_reduce_new scenario_new
    scenarioValues scenarioQueryValues scenarioManyBonds scenarioManyBonds_range
  rw [floor_two] at hcs hvs hget
  obtain ⟨c0, v0⟩ := hget 0 (by norm_num)
  obtain ⟨c1, v1⟩ := hget 1 (by norm_num)
  rw [countP_scenarioManyBonds_zero, natCast_two_pow_unsigned] at c0
  rw [countP_scenarioManyBonds_one, Nat.cast_zero] at c1
  rw [c0, if_pos rfl] at v0
  rw [c1, if_pos rfl] at v1
  have w0 : s.m_correlation_function.get 0 = 8589934592 := by
    rw [v0]
    unfold scenarioManyBonds
    rw [List.map_replicate, List.filter_replicate]
    simp only [scenario_inBin_half_zero, if_true]
    rw [List.map_replicate, List.sum_replicate]
    simp only [scenarioValues, scenarioQueryValues]
    norm_num
  have w1 : s.m_correlation_function.get 1 = 0 := by
    rw [v1]
    unfold scenarioManyBonds
    rw [List.map_replicate, List.filter_replicate]
    simp only [scenario_inBin_half_one, Bool.false_eq_true, if_false]
    rfl
  refine ⟨s, hs, ?_, ?_⟩
  · rw [bin_counts_eq_pair hcs, c0, c1]
  · rw [bin_counts_eq_pair hvs, w0, w1]

theorem Histogram.get_of_bin_counts {V : Type} [Zero V] {h : Histogram V} {l : List V}
    (hl : h.bin_counts = l) (i : Nat) : h.get i = l.getD i 0 := by
  unfold Histogram.get
  rw [hl]

section claims12
variable {T : Type} [Field T]

/-- C1: after `accumulate` on a freshly constructed object followed by `reduce`, whatever the
assignment of the bonds to worker threads, every bin `b` with a positive count holds the sum of
`values[ref_id] * query_values[id]` over the bonds whose distance falls in the range of bin `b`,
divided by `count[b]`; `count[b]` is the number of those bonds as the `unsigned int` cell holds
it, that is modulo `2 ^ 32`. -/
theorem CorrelationFunction.reduce_value_eq_mean (r_max dr : ℚ) (cf : CorrelationFunction T)
    (hnew : CorrelationFunction.new T r_max dr = .ok cf) (values query_values : Nat → T)
    (bonds : Schedule) (hrange : ∀ p ∈ bonds, 0 ≤ p.2.distance ∧ p.2.distance < r_max) :
    ∃ s, (cf.accumulate values query_values bonds).reduce = some s ∧
      s.m_correlation_function.size = nbinsOf r_max dr ∧
      ∀ b, b < nbinsOf r_max dr →
        (s.m_histogram.get b).val = (bonds.map Prod.snd).countP
          (fun nb => (RegularAxis.mk (nbinsOf r_max dr) 0 r_max).inBin b nb.distance)
            % 2 ^ 32 ∧
        (0 < (s.m_histogram.get b).val →
          s.m_correlation_function.get b =
            (((bonds.map Prod.snd).filter
                (fun nb => (RegularAxis.mk (nbinsOf r_max dr) 0 r_max).inBin b
                  nb.distance)).map
              (fun nb => values nb.ref_id * query_values nb.id)).sum
            / (((s.m_histogram.get b).val : Nat) : T)) := by
  obtain ⟨s, hs, -, hvs, hget⟩ :=
    CorrelationFunction.accumulate_reduce_new hnew values query_values bonds hrange
  refine ⟨s, hs, hvs, ?_⟩
  intro b hb
  obtain ⟨hc, hv⟩ := hget b hb
  constructor
  · rw [hc]; exact val_natCast_unsigned _
  · intro hpos
    have hne : s.m_histogram.get b ≠ 0 := by
      intro h0
      rw [h0] at hpos
      exact absurd hpos (by decide)
    rw [hv, if_neg hne]

/-- C2, as amended: after `accumulate` on a freshly constructed object followed by `reduce`, the
canonical count of every bin `b` is the number of bonds whose distance falls in the range of bin
`b` taken modulo `2 ^ 32`, hence that number itself when it is below `2 ^ 32`; every other
assignment of the same bonds to worker threads, in any order, reduces to the same count
histogram. -/
theorem CorrelationFunction.reduce_count_eq_bonds_in_bin (r_max dr : ℚ)
    (cf : CorrelationFunction T) (hnew : CorrelationFunction.new T r_max dr = .ok cf)
    (values query_values : Nat → T) (bonds : Schedule)
    (hrange : ∀ p ∈ bonds, 0 ≤ p.2.distance ∧ p.2.distance < r_max) :
    ∃ s, (cf.accumulate values query_values bonds).reduce = some s ∧
      s.m_histogram.size = nbinsOf r_max dr ∧
      (∀ b, b < nbinsOf r_max dr →
        (s.m_histogram.get b).val = (bonds.map Prod.snd).countP
          (fun nb => (RegularAxis.mk (nbinsOf r_max dr) 0 r_max).inBin b nb.distance)
            % 2 ^ 32 ∧
        ((bonds.map Prod.snd).countP
            (fun nb => (RegularAxis.mk (nbinsOf r_max dr) 0 r_max).inBin b nb.distance)
            < 2 ^ 32 →
          (s.m_histogram.get b).val = (bonds.map Prod.snd).countP
            (fun nb => (RegularAxis.mk (nbinsOf r_max dr) 0 r_max).inBin b nb.distance))) ∧
      ∀ bonds' : Schedule, (bonds'.map Prod.snd).Perm (bonds.map Prod.snd) →
        ∃ s', (cf.accumulate values query_values bonds').reduce = some s' ∧
          s'.m_histogram = s.m_histogram := by
  obtain ⟨s, hs, hcs, -, hget⟩ :=
    CorrelationFunction.accumulate_reduce_new hnew values query_values bonds hrange
  refine ⟨s, hs, hcs, ?_, ?_⟩
  · intro b hb
    rw [(hget b hb).1]
    exact ⟨val_natCast_unsigned _, fun hlt => val_natCast_of_lt hlt⟩
  · intro bonds' hperm
    have hrange' : ∀ p ∈ bonds', 0 ≤ p.2.distance ∧ p.2.distance < r_max := by
      intro p hp
      have hmem : p.2 ∈ bonds.map Prod.snd :=
        hperm.subset (List.mem_map.mpr ⟨p, hp, rfl⟩)
      obtain ⟨q, hq, hqp⟩ := List.mem_map.mp hmem
      rw [← hqp]
      exact hrange q hq
    obtain ⟨s', hs', hcs', -, hget'⟩ :=
      CorrelationFunction.accumulate_reduce_new hnew values query_values bonds' hrange'
    obtain ⟨-, -, hinv, -⟩ := CorrelationFunction.Inv.of_new hnew
    have hax : ∀ (bs : Schedule) (r : CorrelationFunction T),
        (cf.accumulate values query_values bs).reduce = some r →
        r.m_histogram.axes = [RegularAxis.mk (nbinsOf r_max dr) 0 r_max] := by
      intro bs r hr
      obtain ⟨r', hr', hspec⟩ :=
        CorrelationFunction.reduce_spec (cf.accumulate values query_values bs)
      rw [hr] at hr'
      injection hr' with hr'
      subst hr'
      exact hspec.count_axes.trans (hinv.accumulate_inv values query_values bs).count.1
    refine ⟨s', hs', ?_⟩
    apply Histogram.ext_get
    · rw [hax _ _ hs', hax _ _ hs]
    · rw [hcs', hcs]
    · intro b hb
      rw [hcs'] at hb
      rw [(hget' b hb).1, (hget b hb).1, hperm.countP_eq]

end claims12

/-- Witness of C1, the concrete scenario: `r_max = 2`, `dr = 1`, the bonds `(0, 0, 0.5)`,
`(0, 1, 1.5)`, `(1, 0, 0.5)`, values `[2, 3]` and query values `[1, 4]` give the normalized
values `[2.5, 8]`. -/
theorem CorrelationFunction.reduce_value_eq_mean_witness :
    CorrelationFunction.new ℚ 2 1 = .ok scenario ∧
    (∀ p ∈ scenarioBonds, 0 ≤ p.2.distance ∧ p.2.distance < 2) ∧
    ∃ s, (scenario.accumulate scenarioValues scenarioQueryValues scenarioBonds).reduce = some s ∧
      s.m_correlation_function.bin_counts = [5 / 2, 8] := by
  refine ⟨scenario_new, scenarioBonds_range, ?_⟩
  obtain ⟨s, hs, hsz, hv⟩ := CorrelationFunction.reduce_value_eq_mean 2 1 scenario scenario_new
    scenarioValues scenarioQueryValues scenarioBonds scenarioBonds_range
  refine ⟨s, hs, ?_⟩
  rw [floor_two] at hsz hv
  obtain ⟨c0, v0⟩ := hv 0 (by norm_num)
  obtain ⟨c1, v1⟩ := hv 1 (by norm_num)
  have e0 : (s.m_histogram.get 0).val = 2 := by
    rw [c0]
    simp [scenarioBonds, RegularAxis.inBin, RegularAxis.bin_width, List.countP_cons]
    norm_num
  have e1 : (s.m_histogram.get 1).val = 1 := by
    rw [c1]
    simp [scenarioBonds, RegularAxis.inBin, RegularAxis.bin_width, List.countP_cons]
    norm_num
  rw [bin_counts_eq_pair hsz, v0 (by rw [e0]; norm_num), v1 (by rw [e1]; norm_num), e0, e1]
  simp [scenarioBonds, RegularAxis.inBin, RegularAxis.bin_width, List.filter_cons,
    scenarioValues, scenarioQueryValues]
  norm_num

/-- Witness of C2, the concrete scenario: the three bonds reduce to the counts `[2, 1]`, and so
do the same bonds handed to other threads. -/
theorem CorrelationFunction.reduce_count_eq_bonds_in_bin_witness :
    CorrelationFunction.new ℚ 2 1 = .ok scenario ∧
    (∀ p ∈ scenarioBonds, 0 ≤ p.2.distance ∧ p.2.distance < 2) ∧
    ∃ s, (scenario.accumulate scenarioValues scenarioQueryValues scenarioBonds).reduce = some s ∧
      s.m_histogram.bin_counts = [2, 1] ∧
      ∃ s', (scenario.accumulate scenarioValues scenarioQueryValues
          scenarioBondsRescheduled).reduce = some s' ∧
        s'.m_histogram.bin_counts = [2, 1] := by
  refine ⟨scenario_new, scenarioBonds_range, ?_⟩
  obtain ⟨s, hs, hsz, hc, hperm⟩ := CorrelationFunction.reduce_count_eq_bonds_in_bin 2 1 scenario
    scenario_new scenarioValues scenarioQueryValues scenarioBonds scenarioBonds_range
  rw [floor_two] at hsz hc
  have e0 : s.m_histogram.get 0 = 2 := by
    apply Fin.ext
    rw [(hc 0 (by norm_num)).1]
    simp [scenarioBonds, RegularAxis.inBin, RegularAxis.bin_width, List.countP_cons]
    norm_num
  have e1 : s.m_histogram.get 1 = 1 := by
    apply Fin.ext
    rw [(hc 1 (by norm_num)).1]
    simp [scenarioBonds, RegularAxis.inBin, RegularAxis.bin_width, List.countP_cons]
    norm_num
  have e : s.m_histogram.bin_counts = [2, 1] := by
    rw [bin_counts_eq_pair hsz, e0, e1]
  obtain ⟨s', hs', heq⟩ := hperm scenarioBondsRescheduled (List.Perm.refl _)
  exact ⟨s, hs, e, s', hs', by rw [heq, e]⟩

/-- Counterexample to C2: in the scenario `2 ^ 32` bonds, all at distance `0.5` in
`[0, r_max)`, fall in the range of bin 0, and after `accumulate` and `reduce` the canonical
count of bin 0 is 0. -/
theorem CorrelationFunction.reduce_count_wraps :
    CorrelationFunction.new ℚ 2 1 = .ok scenario ∧
    (∀ p ∈ scenarioManyBonds, 0 ≤ p.2.distance ∧ p.2.distance < 2) ∧
    (scenarioManyBonds.map Prod.snd).countP
      (fun nb => (RegularAxis.mk 2 0 2).inBin 0 nb.distance) = 4294967296 ∧
    ∃ s, (scenario.accumulate scenarioValues scenarioQueryValues scenarioManyBonds).reduce
        = some s ∧
      (s.m_histogram.get 0).val = 0 ∧
      (s.m_histogram.get 0).val ≠ (scenarioManyBonds.map Prod.snd).countP
        (fun nb => (RegularAxis.mk 2 0 2).inBin 0 nb.distance) := by
  obtain ⟨s, hs, hc, -⟩ := scenarioManyBonds_reduce
  have h0 : (s.m_histogram.get 0).val = 0 := by
    rw [Histogram.get_of_bin_counts hc]; rfl
  refine ⟨scenario_new, scenarioManyBonds_range, countP_scenarioManyBonds_zero, s, hs, h0, ?_⟩
  rw [h0, countP_scenarioManyBonds_zero]
  norm_num

section claims
variable {T : Type} [Field T]

/-- C6: on the axis the constructor builds, the bin of every distance `x` in `[0, r_max)` is
`floor(x / w)` with `w = r_max / nbins`, it is less than `nbins`, `x` lies in the interval
`[bin * w, (bin + 1) * w)` and in no other interval `[k * w, (k + 1) * w)`; the `nbins`
intervals end at `r_max` and each of them lies inside `[0, r_max)`. -/
theorem CorrelationFunction.bin_lt_nbins_and_tiling (r_max dr : ℚ) (cf : CorrelationFunction T)
    (hnew : CorrelationFunction.new T r_max dr = .ok cf) (x : ℚ) (hx0 : 0 ≤ x)
    (hx : x < r_max) :
    ((cf.m_histogram.bin [x] : Nat) : ℤ) = ⌊x / (r_max / (cf.m_histogram.size : ℚ))⌋ ∧
    cf.m_histogram.bin [x] < cf.m_histogram.size ∧
    (cf.m_histogram.bin [x] : ℚ) * (r_max / (cf.m_histogram.size : ℚ)) ≤ x ∧
    x < ((cf.m_histogram.bin [x] : ℚ) + 1) * (r_max / (cf.m_histogram.size : ℚ)) ∧
    (∀ k : Nat, (k : ℚ) * (r_max / (cf.m_histogram.size : ℚ)) ≤ x →
      x < ((k : ℚ) + 1) * (r_max / (cf.m_histogram.size : ℚ)) → k = cf.m_histogram.bin [x]) ∧
    (cf.m_histogram.size : ℚ) * (r_max / (cf.m_histogram.size : ℚ)) = r_max ∧
    (∀ (k : Nat) (y : ℚ), k < cf.m_histogram.size →
      (k : ℚ) * (r_max / (cf.m_histogram.size : ℚ)) ≤ y →
      y < ((k : ℚ) + 1) * (r_max / (cf.m_histogram.size : ℚ)) → 0 ≤ y ∧ y < r_max) := by
  obtain ⟨hdr, hle, hinv, -⟩ := CorrelationFunction.Inv.of_new hnew
  have hn : 0 < (RegularAxis.mk (nbinsOf r_max dr) 0 r_max).nbins := nbins_pos hdr hle
  have hlt : (RegularAxis.mk (nbinsOf r_max dr) 0 r_max).min
      < (RegularAxis.mk (nbinsOf r_max dr) 0 r_max).max := lt_of_lt_of_le hdr hle
  have hbin := Histogram.bin_single cf.m_histogram _ x hinv.count.1
  have hsize : cf.m_histogram.size = nbinsOf r_max dr := hinv.count.2
  have hw : (RegularAxis.mk (nbinsOf r_max dr) 0 r_max).bin_width
      = r_max / ((nbinsOf r_max dr : Nat) : ℚ) := by
    simp [RegularAxis.bin_width]
  have hwpos := RegularAxis.bin_width_pos hn hlt
  have hnq : (0 : ℚ) < ((nbinsOf r_max dr : Nat) : ℚ) := by exact_mod_cast hn
  have hiff := fun k => RegularAxis.bin_eq_iff hn hlt (x := x) hx0 k
  rw [hbin, hsize]
  rw [hw] at hwpos
  simp only [hw, zero_add] at hiff
  refine ⟨?_, ?_, ((hiff _).mp rfl).1, ((hiff _).mp rfl).2, ?_, ?_, ?_⟩
  · unfold RegularAxis.bin
    rw [hw]
    simp only [sub_zero]
    exact Int.toNat_of_nonneg (Int.floor_nonneg.mpr (div_nonneg hx0 hwpos.le))
  · exact RegularAxis.bin_lt hn hlt hx0 hx
  · intro k h1 h2
    exact ((hiff k).mpr ⟨h1, h2⟩).symm
  · field_simp
  · intro k y hk h1 h2
    have hk0 : (0 : ℚ) ≤ (k : ℚ) := Nat.cast_nonneg k
    have hk1 : (k : ℚ) + 1 ≤ ((nbinsOf r_max dr : Nat) : ℚ) := by exact_mod_cast hk
    have htop : ((nbinsOf r_max dr : Nat) : ℚ)
        * (r_max / ((nbinsOf r_max dr : Nat) : ℚ)) = r_max := by field_simp
    constructor
    · exact le_trans (mul_nonneg hk0 hwpos.le) h1
    · calc y < ((k : ℚ) + 1) * (r_max / ((nbinsOf r_max dr : Nat) : ℚ)) := h2
        _ ≤ ((nbinsOf r_max dr : Nat) : ℚ)
              * (r_max / ((nbinsOf r_max dr : Nat) : ℚ)) :=
            mul_le_mul_of_nonneg_right hk1 hwpos.le
        _ = r_max := htop

/-- C7: `reduce` is idempotent: on every state it returns, and reducing the state it returns
gives that same state again, so the canonical counts and the normalized values are those of
the first call and no value is divided a second time. -/
theorem CorrelationFunction.reduce_idempotent (cf : CorrelationFunction T) :
    ∃ s, cf.reduce = some s ∧ s.reduce = some s := by
  obtain ⟨s, hs, hspec⟩ := CorrelationFunction.reduce_spec cf
  obtain ⟨s', hs', hspec'⟩ := CorrelationFunction.reduce_spec s
  refine ⟨s, hs, ?_⟩
  rw [hs', CorrelationFunction.ReducedFrom.unique hspec' hspec.again]

/-- C8: accumulation composes across calls: `accumulate` on a batch `A`, then on a batch `B`,
then `reduce` gives the canonical count and normalized value histograms of one `accumulate`,
followed by `reduce`, over any batch `C` whose bonds carry the distances and values of the bonds
of `A` and `B` together. -/
theorem CorrelationFunction.accumulate_compose (r_max dr : ℚ) (cf : CorrelationFunction T)
    (h : CorrelationFunction.Reachable r_max dr cf)
    (valuesA query_valuesA valuesB query_valuesB values query_values : Nat → T)
    (A B C : Schedule)
    (hC : (contributions values query_values C).Perm
      (contributions valuesA query_valuesA A ++ contributions valuesB query_valuesB B)) :
    ∃ s, ((cf.accumulate valuesA query_valuesA A).accumulate valuesB query_valuesB B).reduce
        = some s ∧
      ∃ s', (cf.accumulate values query_values C).reduce = some s' ∧
        s'.m_histogram = s.m_histogram ∧
        s'.m_correlation_function = s.m_correlation_function := by
  obtain ⟨-, -, hinv⟩ := h.inv
  have hA := hinv.accumulate_inv valuesA query_valuesA A
  have hAB := hA.accumulate_inv valuesB query_valuesB B
  have hCi := hinv.accumulate_inv values query_values C
  obtain ⟨s, hs, hspec, hget⟩ := CorrelationFunction.reduce_get hAB
  obtain ⟨s', hs', hspec', hget'⟩ := CorrelationFunction.reduce_get hCi
  have htot : ∀ i, i < (RegularAxis.mk (nbinsOf r_max dr) 0 r_max).nbins →
      (cf.accumulate values query_values C).m_local_histograms.total i
        = ((cf.accumulate valuesA query_valuesA A).accumulate valuesB
            query_valuesB B).m_local_histograms.total i ∧
      (cf.accumulate values query_values C).m_local_correlation_function.total i
        = ((cf.accumulate valuesA query_valuesA A).accumulate valuesB
            query_valuesB B).m_local_correlation_function.total i := by
    intro i hi
    obtain ⟨a1, a2⟩ := CorrelationFunction.totals_accumulate hinv valuesA query_valuesA A hi
    obtain ⟨b1, b2⟩ := CorrelationFunction.totals_accumulate hA valuesB query_valuesB B hi
    obtain ⟨c1, c2⟩ := CorrelationFunction.totals_accumulate hinv values query_values C hi
    rw [countP_contributions _ valuesA query_valuesA A] at a1
    rw [sum_contributions _ valuesA query_valuesA A] at a2
    rw [countP_contributions _ valuesB query_valuesB B] at b1
    rw [sum_contributions _ valuesB query_valuesB B] at b2
    rw [countP_contributions _ values query_values C] at c1
    rw [sum_contributions _ values query_values C] at c2
    rw [c1, c2, b1, b2, a1, a2]
    constructor
    · rw [hC.countP_eq, List.countP_append, Nat.cast_add, add_assoc]
    · rw [((hC.filter _).map _).sum_eq, List.filter_append, List.map_append, List.sum_append,
        add_assoc]
  refine ⟨s, hs, s', hs', ?_, ?_⟩
  · apply Histogram.ext_get
    · rw [hspec'.count_axes, hspec.count_axes, hCi.count.1, hAB.count.1]
    · rw [hspec'.count_size, hspec.count_size, hCi.count.2, hAB.count.2]
    · intro i hi
      rw [hspec'.count_size, hCi.count.2] at hi
      rw [(hget' i hi).1, (hget i hi).1, (htot i hi).1]
  · apply Histogram.ext_get
    · rw [hspec'.value_axes, hspec.value_axes, hCi.value.1, hAB.value.1]
    · rw [hspec'.value_size, hspec.value_size, hCi.value.2, hAB.value.2]
    · intro i hi
      rw [hspec'.value_size, hCi.value.2] at hi
      rw [(hget' i hi).2, (hget i hi).2, (htot i hi).1, (htot i hi).2]

/-- C9: in every state reached from construction, `reset` followed by `reduce` with no
accumulation in between gives count and value histograms that are zero in every bin, on the
axis they had before the reset: the bins the constructor computed, over `[0, r_max)`. -/
theorem CorrelationFunction.reset_reduce_zero (r_max dr : ℚ) (cf : CorrelationFunction T)
    (h : CorrelationFunction.Reachable r_max dr cf) :
    ∃ s, cf.reset.reduce = some s ∧
      s.m_histogram.bin_counts = List.replicate (nbinsOf r_max dr) 0 ∧
      s.m_correlation_function.bin_counts = List.replicate (nbinsOf r_max dr) 0 ∧
      s.m_histogram.axes = [⟨nbinsOf r_max dr, 0, r_max⟩] ∧
      s.m_correlation_function.axes = [⟨nbinsOf r_max dr, 0, r_max⟩] ∧
      s.m_histogram.axes = cf.m_histogram.axes ∧
      s.m_correlation_function.axes = cf.m_correlation_function.axes := by
  obtain ⟨-, -, hinv⟩ := h.inv
  have hr := hinv.reset_inv
  obtain ⟨s, hs, hspec, hget⟩ := CorrelationFunction.reduce_get hr
  have hs' := hr.reduced_inv hspec
  have hc0 : ∀ i, cf.reset.m_local_histograms.total i = 0 :=
    fun i => ThreadLocalHistogram.total_reset _ i
  have hv0 : ∀ i, cf.reset.m_local_correlation_function.total i = 0 :=
    fun i => ThreadLocalHistogram.total_reset _ i
  refine ⟨s, hs, ?_, ?_, hs'.count.1, hs'.value.1, ?_, ?_⟩
  · apply Histogram.bin_counts_eq_replicate hs'.count.2
    intro i hi
    rw [(hget i hi).1, hc0]
  · apply Histogram.bin_counts_eq_replicate hs'.value.2
    intro i hi
    rw [(hget i hi).2, hc0, hv0]
    simp
  · rw [hs'.count.1, hinv.count.1]
  · rw [hs'.value.1, hinv.value.1]

end claims

/-- Witness of C6: in the scenario the distance `1.5` is binned into bin 1, the interval
`[1, 2)`. -/
theorem CorrelationFunction.bin_lt_nbins_and_tiling_witness :
    CorrelationFunction.new ℚ 2 1 = .ok scenario ∧ (0 : ℚ) ≤ 3 / 2 ∧ (3 / 2 : ℚ) < 2 ∧
    scenario.m_histogram.bin [3 / 2] = 1 ∧
    scenario.m_histogram.bin [3 / 2] < scenario.m_histogram.size := by
  have h := CorrelationFunction.bin_lt_nbins_and_tiling 2 1 scenario scenario_new (3 / 2)
    (by norm_num) (by norm_num)
  have hsize : scenario.m_histogram.size = 2 := rfl
  obtain ⟨-, hlt, -, -, huniq, -, -⟩ := h
  refine ⟨scenario_new, by norm_num, by norm_num, ?_, hlt⟩
  refine (huniq 1 ?_ ?_).symm
  · rw [hsize]; norm_num
  · rw [hsize]; norm_num

/-- Witness of C8: in the scenario, the first two bonds and then the third, accumulated in two
calls, reduce to the histograms of the three bonds accumulated in one call on other threads. -/
theorem CorrelationFunction.accumulate_compose_witness :
    CorrelationFunction.Reachable 2 1 scenario ∧
    (contributions scenarioValues scenarioQueryValues scenarioBondsRescheduled).Perm
      (contributions scenarioValues scenarioQueryValues (scenarioBonds.take 2)
        ++ contributions scenarioValues scenarioQueryValues (scenarioBonds.drop 2)) ∧
    ∃ s, ((scenario.accumulate scenarioValues scenarioQueryValues
          (scenarioBonds.take 2)).accumulate scenarioValues scenarioQueryValues
          (scenarioBonds.drop 2)).reduce = some s ∧
      ∃ s', (scenario.accumulate scenarioValues scenarioQueryValues
          scenarioBondsRescheduled).reduce = some s' ∧
        s'.m_histogram = s.m_histogram ∧
        s'.m_correlation_function = s.m_correlation_function :=
  ⟨.new scenario_new, List.Perm.refl _,
    CorrelationFunction.accumulate_compose 2 1 scenario (.new scenario_new) scenarioValues
      scenarioQueryValues scenarioValues scenarioQueryValues scenarioValues scenarioQueryValues
      (scenarioBonds.take 2) (scenarioBonds.drop 2) scenarioBondsRescheduled (List.Perm.refl _)⟩

/-- Witness of C9: the scenario after its three bonds, reset and reduced, has the counts
`[0, 0]` and the values `[0, 0]` on the axis of 2 bins over `[0, 2)`. -/
theorem CorrelationFunction.reset_reduce_zero_witness :
    CorrelationFunction.Reachable 2 1
      (scenario.accumulate scenarioValues scenarioQueryValues scenarioBonds) ∧
    ∃ s, (scenario.accumulate scenarioValues scenarioQueryValues scenarioBonds).reset.reduce
        = some s ∧
      s.m_histogram.bin_counts = [0, 0] ∧
      s.m_correlation_function.bin_counts = [0, 0] ∧
      s.m_histogram.axes = [⟨2, 0, 2⟩] ∧
      s.m_correlation_function.axes = [⟨2, 0, 2⟩] := by
  have hreach : CorrelationFunction.Reachable 2 1
      (scenario.accumulate scenarioValues scenarioQueryValues scenarioBonds) :=
    .accumulate _ _ _ (.new scenario_new) scenarioBonds_range
  obtain ⟨s, hs, h1, h2, h3, h4, -, -⟩ := CorrelationFunction.reset_reduce_zero 2 1 _ hreach
  rw [floor_two] at h1 h2 h3 h4
  exact ⟨hreach, s, hs, h1, h2, h3, h4⟩

end freud.density

namespace freud.pmft

/-- C10: calling a reduced-array accessor (`getBinCounts` or `getPCF`) and then an accessor
again, with nothing in between, invokes `reducePCF` at most once and never in the second call;
the second call leaves the state as the first left it, and calling the same accessor twice
returns the same array twice. -/
theorem PMFT.accessor_twice_reduces_once (reducePCF : PMFT → PMFT) (self : PMFT) :
    ((self.getBinCounts reducePCF).state.getBinCounts reducePCF).reducePCF_calls = 0 ∧
    ((self.getBinCounts reducePCF).state.getPCF reducePCF).reducePCF_calls = 0 ∧
    ((self.getPCF reducePCF).state.getPCF reducePCF).reducePCF_calls = 0 ∧
    ((self.getPCF reducePCF).state.getBinCounts reducePCF).reducePCF_calls = 0 ∧
    (self.getBinCounts reducePCF).reducePCF_calls
      + ((self.getBinCounts reducePCF).state.getBinCounts reducePCF).reducePCF_calls ≤ 1 ∧
    (self.getPCF reducePCF).reducePCF_calls
      + ((self.getPCF reducePCF).state.getPCF reducePCF).reducePCF_calls ≤ 1 ∧
    ((self.getBinCounts reducePCF).state.getBinCounts reducePCF).value
      = (self.getBinCounts reducePCF).value ∧
    ((self.getPCF reducePCF).state.getPCF reducePCF).value = (self.getPCF reducePCF).value ∧
    ((self.getBinCounts reducePCF).state.getBinCounts reducePCF).state
      = (self.getBinCounts reducePCF).state ∧
    ((self.getPCF reducePCF).state.getPCF reducePCF).state = (self.getPCF reducePCF).state := by
  by_cases h : self.m_reduce = true <;> simp [PMFT.getBinCounts, PMFT.getPCF, h]

end freud.pmft

namespace freud.density
open util locality

section claims3
variable {T : Type} [Field T]

/-- C12: the reduction does not depend on the order of the threads: in every state, with the
thread-local count histograms and the thread-local value histograms each listed in any other
order, `reduce` returns the same canonical count histogram and the same normalized value
histogram. -/
theorem CorrelationFunction.reduce_thread_order (cf : CorrelationFunction T)
    (counts : List (Nat × Histogram UnsignedInt)) (vals : List (Nat × Histogram T))
    (hc : counts.Perm cf.m_local_histograms.local_histograms)
    (hv : vals.Perm cf.m_local_correlation_function.local_histograms) :
    ∃ s s', cf.reduce = some s ∧
      CorrelationFunction.reduce
        { cf with
          m_local_histograms := { cf.m_local_histograms with local_histograms := counts }
          m_local_correlation_function :=
            { cf.m_local_correlation_function with local_histograms := vals } } = some s' ∧
      s'.m_histogram = s.m_histogram ∧
      s'.m_correlation_function = s.m_correlation_function := by
  obtain ⟨s, hs, hspec⟩ := CorrelationFunction.reduce_spec cf
  obtain ⟨s', hs', hspec'⟩ := CorrelationFunction.reduce_spec
    { cf with
      m_local_histograms := { cf.m_local_histograms with local_histograms := counts }
      m_local_correlation_function :=
        { cf.m_local_correlation_function with local_histograms := vals } }
  have hct : ∀ i, ThreadLocalHistogram.total
      { cf.m_local_histograms with local_histograms := counts } i
      = cf.m_local_histograms.total i := by
    intro i
    unfold ThreadLocalHistogram.total
    exact (hc.map _).sum_eq
  have hvt : ∀ i, ThreadLocalHistogram.total
      { cf.m_local_correlation_function with local_histograms := vals } i
      = cf.m_local_correlation_function.total i := by
    intro i
    unfold ThreadLocalHistogram.total
    exact (hv.map _).sum_eq
  have hcount : s'.m_histogram = s.m_histogram := by
    apply Histogram.ext_get
    · rw [hspec'.count_axes, hspec.count_axes]
    · rw [hspec'.count_size, hspec.count_size]
    · intro i hi
      rw [hspec'.count_size] at hi
      rw [hspec'.count_get i hi, hspec.count_get i hi]
      exact hct i
  refine ⟨s, s', hs, hs', hcount, ?_⟩
  apply Histogram.ext_get
  · rw [hspec'.value_axes, hspec.value_axes]
  · rw [hspec'.value_size, hspec.value_size]
  · intro i hi
    rw [hspec'.value_size] at hi
    rw [hspec'.value_get i hi, hspec.value_get i hi, hcount]
    show (if s.m_histogram.get i ≠ 0 then
        ThreadLocalHistogram.total
          { cf.m_local_correlation_function with local_histograms := vals } i
          / (((s.m_histogram.get i).val : Nat) : T)
      else ThreadLocalHistogram.total
          { cf.m_local_correlation_function with local_histograms := vals } i) = _
    rw [hvt i]

/-- C14: `reduce` leaves every thread-local count histogram and every thread-local value
histogram as it is, together with the parameters and the dirty flag: it returns in every state,
and only the canonical count and value histograms are written. -/
theorem CorrelationFunction.reduce_keeps_locals (cf : CorrelationFunction T) :
    ∃ s, cf.reduce = some s ∧
      s.m_local_histograms = cf.m_local_histograms ∧
      s.m_local_correlation_function = cf.m_local_correlation_function ∧
      s.m_r_max = cf.m_r_max ∧ s.m_dr = cf.m_dr ∧ s.m_reduce = cf.m_reduce := by
  obtain ⟨s, hs, hspec⟩ := CorrelationFunction.reduce_spec cf
  exact ⟨s, hs, hspec.local_count_eq, hspec.local_value_eq, hspec.r_max_eq, hspec.dr_eq,
    hspec.reduce_eq⟩

end claims3

/-- Witness of C12: in the scenario after its three bonds, threads 0 and 1 hold copies; with
the two copies listed in the reverse order the reduction returns the same histograms. -/
theorem CorrelationFunction.reduce_thread_order_witness :
    ((scenario.accumulate scenarioValues scenarioQueryValues
        scenarioBonds).m_local_histograms.local_histograms.reverse).Perm
      (scenario.accumulate scenarioValues scenarioQueryValues
        scenarioBonds).m_local_histograms.local_histograms ∧
    ((scenario.accumulate scenarioValues scenarioQueryValues
        scenarioBonds).m_local_correlation_function.local_histograms.reverse).Perm
      (scenario.accumulate scenarioValues scenarioQueryValues
        scenarioBonds).m_local_correlation_function.local_histograms ∧
    ∃ s s', (scenario.accumulate scenarioValues scenarioQueryValues scenarioBonds).reduce
        = some s ∧
      CorrelationFunction.reduce
        { scenario.accumulate scenarioValues scenarioQueryValues scenarioBonds with
          m_local_histograms :=
            { (scenario.accumulate scenarioValues scenarioQueryValues
                scenarioBonds).m_local_histograms with
              local_histograms := (scenario.accumulate scenarioValues scenarioQueryValues
                scenarioBonds).m_local_histograms.local_histograms.reverse }
          m_local_correlation_function :=
            { (scenario.accumulate scenarioValues scenarioQueryValues
                scenarioBonds).m_local_correlation_function with
              local_histograms := (scenario.accumulate scenarioValues scenarioQueryValues
                scenarioBonds).m_local_correlation_function.local_histograms.reverse } }
        = some s' ∧
      s'.m_histogram = s.m_histogram ∧
      s'.m_correlation_function = s.m_correlation_function :=
  ⟨List.reverse_perm _, List.reverse_perm _,
    CorrelationFunction.reduce_thread_order _ _ _ (List.reverse_perm _) (List.reverse_perm _)⟩

end freud.density

namespace freud.pmft

/-- C15: each accessor (`getBinCounts`, `getPCF`) invokes `reducePCF` exactly when the dirty
flag `m_reduce` is true on entry, namely once on the entry state, and `m_reduce` is false on
return; with `m_reduce` false on entry the accessor changes no state and returns the stored
array. -/
theorem PMFT.accessor_reduces_iff_dirty (reducePCF : PMFT → PMFT) (self : PMFT) :
    ((self.getBinCounts reducePCF).reducePCF_calls = if self.m_reduce = true then 1 else 0) ∧
    ((self.getPCF reducePCF).reducePCF_calls = if self.m_reduce = true then 1 else 0) ∧
    (self.getBinCounts reducePCF).state.m_reduce = false ∧
    (self.getPCF reducePCF).state.m_reduce = false ∧
    (self.m_reduce = true →
      (self.getBinCounts reducePCF).state = { reducePCF self with m_reduce := false } ∧
      (self.getBinCounts reducePCF).value = (reducePCF self).m_bin_counts ∧
      (self.getPCF reducePCF).state = { reducePCF self with m_reduce := false } ∧
      (self.getPCF reducePCF).value = (reducePCF self).m_pcf_array) ∧
    (self.m_reduce = false →
      (self.getBinCounts reducePCF).state = self ∧
      (self.getBinCounts reducePCF).value = self.m_bin_counts ∧
      (self.getPCF reducePCF).state = self ∧
      (self.getPCF reducePCF).value = self.m_pcf_array) := by
  cases self with
  | mk r b p l =>
    cases r <;> simp [PMFT.getBinCounts, PMFT.getPCF]

end freud.pmft

namespace freud.util

section copies
variable {V : Type}

/-- After an increment by thread `t`, the copy of `t` is its former copy with the cell written,
and the copy of every other thread is its former copy. -/
theorem ThreadLocalHistogram.lookup_incrementLocal [Zero V] [Add V] (proto : Histogram V)
    (t bin : Nat) (delta : V) (l : List (Nat × Histogram V)) (u : Nat) :
    ((ThreadLocalHistogram.incrementLocal proto t bin delta l).lookup u).getD proto
      = if u = t then
          ((l.lookup t).getD proto).put bin (((l.lookup t).getD proto).get bin + delta)
        else (l.lookup u).getD proto := by
  induction l with
  | nil =>
    unfold ThreadLocalHistogram.incrementLocal
    by_cases hu : u = t
    · subst hu; simp [List.lookup]
    · have hne : (u == t) = false := by simpa using hu
      simp [List.lookup, hu, hne]
  | cons p l ih =>
    obtain ⟨w, h⟩ := p
    unfold ThreadLocalHistogram.incrementLocal
    by_cases hw : w = t
    · subst hw
      by_cases hu : u = w
      · subst hu; simp [List.lookup]
      · have hne : (u == w) = false := by simpa using hu
        simp [List.lookup, hu, hne]
    · simp only [hw, if_false]
      by_cases hu : u = w
      · subst hu
        simp [List.lookup, hw]
      · have hne : (u == w) = false := by simpa using hu
        have hne' : (t == w) = false := by simpa using (fun h : t = w => hw h.symm)
        simp only [List.lookup, hne, hne']
        exact ih

theorem ThreadLocalHistogram.localCopy_increment [Zero V] [Add V] (tl : ThreadLocalHistogram V)
    (t bin : Nat) (delta : V) (u : Nat) :
    (tl.increment t bin delta).localCopy u
      = if u = t then (tl.localCopy t).put bin ((tl.localCopy t).get bin + delta)
        else tl.localCopy u := by
  unfold ThreadLocalHistogram.localCopy ThreadLocalHistogram.increment
  exact ThreadLocalHistogram.lookup_incrementLocal tl.prototype t bin delta _ u

end copies

end freud.util

namespace freud.density
open util locality

section frame
variable {T : Type} [Field T]

/-- In a state that satisfies the invariant the copy every thread works on has the geometry of
the axis, for the count and for the value histogram. -/
theorem LocalPair.lookup_shaped {U : Type} {a : RegularAxis} {pc : Histogram UnsignedInt} {pv : Histogram U}
    (hpc : pc.Shaped a) (hpv : pv.Shaped a) {cl : List (Nat × Histogram UnsignedInt)}
    {vl : List (Nat × Histogram U)} (h : List.Forall₂ (LocalPair a) cl vl) (t : Nat) :
    ((cl.lookup t).getD pc).Shaped a ∧ ((vl.lookup t).getD pv).Shaped a := by
  induction h with
  | nil => exact ⟨hpc, hpv⟩
  | @cons c v cl vl hcv _ ih =>
    obtain ⟨u, hc⟩ := c
    obtain ⟨u', hv⟩ := v
    obtain ⟨huu, hcs, hvs⟩ := hcv
    simp only at huu hcs hvs
    subst huu
    by_cases ht : t = u
    · subst ht
      simp [List.lookup, hcs, hvs]
    · have hne : (t == u) = false := by simpa using ht
      simp only [List.lookup, hne]
      exact ih

theorem CorrelationFunction.Inv.localCopy_shaped {cf : CorrelationFunction T} {a : RegularAxis}
    (h : cf.Inv a) (t : Nat) :
    (cf.m_local_histograms.localCopy t).Shaped a ∧
      (cf.m_local_correlation_function.localCopy t).Shaped a :=
  LocalPair.lookup_shaped h.count_proto h.value_proto h.paired t

/-- C13: processing one bond (with distance in `[0, r_max)`) on thread `t` leaves both canonical
histograms and the copies of every other thread as they are; in the count copy and in the value
copy of thread `t` the cell at the bond's bin receives `+ 1` and
`+ values[ref_id] * query_values[id]`, every other cell keeps its content, and the axes and the
sizes of the two copies are unchanged. -/
theorem CorrelationFunction.bondCallback_frame (r_max dr : ℚ) (cf : CorrelationFunction T)
    (h : CorrelationFunction.Reachable r_max dr cf) (values query_values : Nat → T) (t : Nat)
    (nb : NeighborBond) (hd0 : 0 ≤ nb.distance) (hd : nb.distance < r_max) :
    (CorrelationFunction.bondCallback values query_values cf t nb).m_histogram
      = cf.m_histogram ∧
    (CorrelationFunction.bondCallback values query_values cf t nb).m_correlation_function
      = cf.m_correlation_function ∧
    (∀ u, u ≠ t →
      (CorrelationFunction.bondCallback values query_values cf t
          nb).m_local_histograms.localCopy u = cf.m_local_histograms.localCopy u ∧
      (CorrelationFunction.bondCallback values query_values cf t
          nb).m_local_correlation_function.localCopy u
        = cf.m_local_correlation_function.localCopy u) ∧
    cf.m_histogram.bin [nb.distance] < (cf.m_local_histograms.localCopy t).size ∧
    ((CorrelationFunction.bondCallback values query_values cf t
        nb).m_local_histograms.localCopy t).get (cf.m_histogram.bin [nb.distance])
      = (cf.m_local_histograms.localCopy t).get (cf.m_histogram.bin [nb.distance]) + 1 ∧
    ((CorrelationFunction.bondCallback values query_values cf t
        nb).m_local_correlation_function.localCopy t).get (cf.m_histogram.bin [nb.distance])
      = (cf.m_local_correlation_function.localCopy t).get (cf.m_histogram.bin [nb.distance])
        + values nb.ref_id * query_values nb.id ∧
    (∀ i, i ≠ cf.m_histogram.bin [nb.distance] →
      ((CorrelationFunction.bondCallback values query_values cf t
          nb).m_local_histograms.localCopy t).get i = (cf.m_local_histograms.localCopy t).get i ∧
      ((CorrelationFunction.bondCallback values query_values cf t
          nb).m_local_correlation_function.localCopy t).get i
        = (cf.m_local_correlation_function.localCopy t).get i) ∧
    ((CorrelationFunction.bondCallback values query_values cf t
        nb).m_local_histograms.localCopy t).axes = (cf.m_local_histograms.localCopy t).axes ∧
    ((CorrelationFunction.bondCallback values query_values cf t
        nb).m_local_histograms.localCopy t).size = (cf.m_local_histograms.localCopy t).size ∧
    ((CorrelationFunction.bondCallback values query_values cf t
        nb).m_local_correlation_function.localCopy t).axes
      = (cf.m_local_correlation_function.localCopy t).axes ∧
    ((CorrelationFunction.bondCallback values query_values cf t
        nb).m_local_correlation_function.localCopy t).size
      = (cf.m_local_correlation_function.localCopy t).size := by
  obtain ⟨hdr, hle, hinv⟩ := h.inv
  have hn : 0 < (RegularAxis.mk (nbinsOf r_max dr) 0 r_max).nbins := nbins_pos hdr hle
  have hlt : (RegularAxis.mk (nbinsOf r_max dr) 0 r_max).min
      < (RegularAxis.mk (nbinsOf r_max dr) 0 r_max).max := lt_of_lt_of_le hdr hle
  have hbin : cf.m_histogram.bin [nb.distance]
      = (RegularAxis.mk (nbinsOf r_max dr) 0 r_max).bin nb.distance :=
    Histogram.bin_single _ _ _ hinv.count.1
  have hblt : cf.m_histogram.bin [nb.distance] < nbinsOf r_max dr := by
    rw [hbin]; exact RegularAxis.bin_lt hn hlt hd0 hd
  obtain ⟨hcs, hvs⟩ := hinv.localCopy_shaped t
  have hcsz : (cf.m_local_histograms.localCopy t).size = nbinsOf r_max dr := hcs.2
  have hvsz : (cf.m_local_correlation_function.localCopy t).size = nbinsOf r_max dr :=
    hvs.2
  have hc : ∀ u, (CorrelationFunction.bondCallback values query_values cf t
      nb).m_local_histograms.localCopy u
      = if u = t then (cf.m_local_histograms.localCopy t).put (cf.m_histogram.bin [nb.distance])
          ((cf.m_local_histograms.localCopy t).get (cf.m_histogram.bin [nb.distance]) + 1)
        else cf.m_local_histograms.localCopy u :=
    fun u => ThreadLocalHistogram.localCopy_increment _ t _ 1 u
  have hv : ∀ u, (CorrelationFunction.bondCallback values query_values cf t
      nb).m_local_correlation_function.localCopy u
      = if u = t then
          (cf.m_local_correlation_function.localCopy t).put (cf.m_histogram.bin [nb.distance])
            ((cf.m_local_correlation_function.localCopy t).get (cf.m_histogram.bin [nb.distance])
              + values nb.ref_id * query_values nb.id)
        else cf.m_local_correlation_function.localCopy u :=
    fun u => ThreadLocalHistogram.localCopy_increment _ t _ _ u
  refine ⟨rfl, rfl, ?_, by rw [hcsz]; exact hblt, ?_, ?_, ?_, ?_, ?_, ?_, ?_⟩
  · intro u hu
    rw [hc u, hv u, if_neg hu, if_neg hu]
    exact ⟨rfl, rfl⟩
  · rw [hc t, if_pos rfl, Histogram.get_put, hcsz, if_pos ⟨rfl, hblt⟩]
  · rw [hv t, if_pos rfl, Histogram.get_put, hvsz, if_pos ⟨rfl, hblt⟩]
  · intro i hi
    rw [hc t, hv t, if_pos rfl, if_pos rfl, Histogram.get_put, Histogram.get_put,
      if_neg (fun h => hi h.1.symm), if_neg (fun h => hi h.1.symm)]
    exact ⟨rfl, rfl⟩
  · rw [hc t, if_pos rfl]; rfl
  · rw [hc t, if_pos rfl, Histogram.size_put]
  · rw [hv t, if_pos rfl]; rfl
  · rw [hv t, if_pos rfl, Histogram.size_put]

end frame

end freud.density

namespace freud.util

theorem ThreadLocalHistogram.get_localCopy_reset {V : Type} [Zero V]
    (tl : ThreadLocalHistogram V) (hz : ∀ i, tl.prototype.get i = 0) (t i : Nat) :
    (tl.reset.localCopy t).get i = 0 := by
  unfold ThreadLocalHistogram.localCopy ThreadLocalHistogram.reset
  simp only
  induction tl.local_histograms with
  | nil => simpa [List.lookup] using hz i
  | cons p l ih =>
    obtain ⟨u, h⟩ := p
    by_cases ht : t = u
    · subst ht
      simp only [List.map_cons, List.lookup, beq_self_eq_true, Option.getD_some]
      exact Histogram.get_reset _ _
    · have hne : (t == u) = false := by simpa using ht
      simp only [List.map_cons, List.lookup, hne]
      exact ih

theorem sum_range_ite_eq (n k : Nat) (hk : k < n) :
    ((List.range n).map (fun i => if k = i then 1 else 0)).sum = 1 := by
  induction n with
  | zero => omega
  | succ n ih =>
    rw [List.range_succ, List.map_append, List.sum_append]
    by_cases hkn : k = n
    · subst hkn
      have hz : ((List.range k).map (fun i => if k = i then 1 else 0)).sum = 0 := by
        apply List.sum_eq_zero
        intro x hx
        obtain ⟨i, hi, rfl⟩ := List.mem_map.mp hx
        have : i < k := List.mem_range.mp hi
        simp; omega
      simp [hz]
    · have hlt : k < n := by omega
      rw [ih hlt]
      simp [hkn]

/-- Entries that each fall in exactly one of `n` classes: the class sizes add up to the number
of entries. -/
theorem sum_countP_classes {α : Type} (f : α → Nat) (n : Nat) (l : List α)
    (hl : ∀ e ∈ l, f e < n) :
    ((List.range n).map (fun i => l.countP (fun e => f e = i))).sum = l.length := by
  induction l with
  | nil => simp
  | cons e l ih =>
    have h1 : ∀ i, (e :: l).countP (fun e => f e = i)
        = l.countP (fun e => f e = i) + if f e = i then 1 else 0 := by
      intro i
      rw [List.countP_cons]
      by_cases h : f e = i <;> simp [h]
    simp only [h1]
    rw [List.sum_map_add, ih (fun e he => hl e (List.mem_cons_of_mem _ he)),
      sum_range_ite_eq n (f e) (hl e (List.mem_cons_self _ _))]
    simp

theorem Histogram.bin_counts_eq_map_get {V : Type} [Zero V] (h : Histogram V) :
    h.bin_counts = (List.range h.size).map (fun i => h.get i) := by
  unfold Histogram.size Histogram.get
  apply List.ext_getElem (by simp)
  intro i h1 h2
  simp [List.getD_eq_getElem?_getD, List.getElem?_eq_getElem h1]

end freud.util

namespace freud.density
open util locality

section history
variable {T : Type} [Field T]

theorem CorrelationFunction.History.reachable {r_max dr : ℚ} {log : List (LogEntry T)}
    {cf : CorrelationFunction T} (h : CorrelationFunction.History r_max dr log cf) :
    CorrelationFunction.Reachable r_max dr cf := by
  induction h with
  | new hnew => exact .new hnew
  | accumulate values query_values bonds _ hr ih => exact .accumulate _ _ _ ih hr
  | reset _ ih => exact .reset ih
  | reduce _ hred ih => exact .reduce ih hred

theorem CorrelationFunction.Reachable.exists_history {r_max dr : ℚ}
    {cf : CorrelationFunction T} (h : CorrelationFunction.Reachable r_max dr cf) :
    ∃ log, CorrelationFunction.History r_max dr log cf := by
  induction h with
  | new hnew => exact ⟨[], .new hnew⟩
  | accumulate values query_values bonds _ hr ih =>
    obtain ⟨log, hl⟩ := ih
    exact ⟨_, .accumulate values query_values bonds hl hr⟩
  | reset _ ih =>
    obtain ⟨log, hl⟩ := ih
    exact ⟨[], .reset hl⟩
  | reduce _ hred ih =>
    obtain ⟨log, hl⟩ := ih
    exact ⟨log, .reduce hl hred⟩

theorem CorrelationFunction.History.range {r_max dr : ℚ} {log : List (LogEntry T)}
    {cf : CorrelationFunction T} (h : CorrelationFunction.History r_max dr log cf) :
    ∀ e ∈ log, 0 ≤ e.2.1.distance ∧ e.2.1.distance < r_max := by
  induction h with
  | new _ => intro e he; cases he
  | accumulate values query_values bonds _ hr ih =>
    intro e he
    rcases List.mem_append.mp he with he | he
    · exact ih e he
    · unfold logOf at he
      obtain ⟨p, hp, rfl⟩ := List.mem_map.mp he
      exact hr p hp
  | reset _ _ => intro e he; cases he
  | reduce _ _ ih => exact ih

theorem countP_logOf (a : RegularAxis) (values query_values : Nat → T) (bonds : Schedule)
    (i : Nat) :
    (bonds.map Prod.snd).countP (fun nb => a.bin nb.distance = i)
      = (logOf values query_values bonds).countP (fun e => a.bin e.2.1.distance = i) := by
  unfold logOf
  rw [List.countP_map, List.countP_map]
  rfl

/-- The count total of a bin over the threads is the number of recorded bonds the axis puts in
that bin. -/
theorem CorrelationFunction.History.total_eq {r_max dr : ℚ} {log : List (LogEntry T)}
    {cf : CorrelationFunction T} (h : CorrelationFunction.History r_max dr log cf) :
    ∀ i, i < nbinsOf r_max dr →
      cf.m_local_histograms.total i = ((log.countP
        (fun e => (RegularAxis.mk (nbinsOf r_max dr) 0 r_max).bin e.2.1.distance = i) : Nat) :
          UnsignedInt) := by
  induction h with
  | new hnew =>
    intro i _
    rw [(CorrelationFunction.total_of_new hnew i).1]; simp
  | @accumulate log cf values query_values bonds hh _ ih =>
    intro i hi
    have hinv := hh.reachable.inv.2.2
    rw [(CorrelationFunction.totals_accumulate hinv values query_values bonds hi).1, ih i hi,
      List.countP_append, Nat.cast_add, countP_logOf _ values query_values]
  | reset _ _ =>
    intro i _
    rw [List.countP_nil, Nat.cast_zero]
    exact ThreadLocalHistogram.total_reset _ i
  | @reduce log cf s _ hred ih =>
    intro i hi
    obtain ⟨s', hs, hspec⟩ := CorrelationFunction.reduce_spec cf
    rw [hred] at hs
    injection hs with hs
    subst hs
    rw [hspec.local_count_eq]
    exact ih i hi

theorem sum_logOf (a : RegularAxis) (values query_values : Nat → T) (bonds : Schedule)
    (i : Nat) :
    (((bonds.map Prod.snd).filter (fun nb => a.bin nb.distance = i)).map
        (fun nb => values nb.ref_id * query_values nb.id)).sum
      = (((logOf values query_values bonds).filter (fun e => a.bin e.2.1.distance = i)).map
          (fun e => e.2.2)).sum := by
  unfold logOf
  rw [List.filter_map, List.filter_map, List.map_map, List.map_map]
  rfl

/-- The value total of a bin over the threads is the sum of the products of the recorded bonds
the axis puts in that bin. -/
theorem CorrelationFunction.History.value_total_eq {r_max dr : ℚ} {log : List (LogEntry T)}
    {cf : CorrelationFunction T} (h : CorrelationFunction.History r_max dr log cf) :
    ∀ i, i < nbinsOf r_max dr →
      cf.m_local_correlation_function.total i = ((log.filter
        (fun e => (RegularAxis.mk (nbinsOf r_max dr) 0 r_max).bin e.2.1.distance = i)).map
          (fun e => e.2.2)).sum := by
  induction h with
  | new hnew =>
    intro i _
    rw [(CorrelationFunction.total_of_new hnew i).2]; rfl
  | @accumulate log cf values query_values bonds hh _ ih =>
    intro i hi
    have hinv := hh.reachable.inv.2.2
    rw [(CorrelationFunction.totals_accumulate hinv values query_values bonds hi).2, ih i hi,
      List.filter_append, List.map_append, List.sum_append, sum_logOf _ values query_values]
  | reset _ _ =>
    intro i _
    exact ThreadLocalHistogram.total_reset _ i
  | @reduce log cf s _ hred ih =>
    intro i hi
    obtain ⟨s', hs, hspec⟩ := CorrelationFunction.reduce_spec cf
    rw [hred] at hs
    injection hs with hs
    subst hs
    rw [hspec.local_value_eq]
    exact ih i hi

end history
end freud.density

namespace freud.density
open util locality

section perThread
variable {T : Type} [Field T]

/-- The effect of one bond on the copies of a thread `u`, cell by cell. -/
theorem CorrelationFunction.localCopy_bondCallback {a : RegularAxis} {cf : CorrelationFunction T}
    (h : cf.Inv a) (values query_values : Nat → T) (t : Nat) (nb : NeighborBond) (u : Nat)
    {i : Nat} (hi : i < a.nbins) :
    ((CorrelationFunction.bondCallback values query_values cf t
        nb).m_local_histograms.localCopy u).get i
      = (cf.m_local_histograms.localCopy u).get i
        + (if t = u ∧ a.bin nb.distance = i then 1 else 0) ∧
    ((CorrelationFunction.bondCallback values query_values cf t
        nb).m_local_correlation_function.localCopy u).get i
      = (cf.m_local_correlation_function.localCopy u).get i
        + (if t = u ∧ a.bin nb.distance = i then values nb.ref_id * query_values nb.id
            else 0) := by
  have hbin : cf.m_histogram.bin [nb.distance] = a.bin nb.distance :=
    Histogram.bin_single _ a _ h.count.1
  obtain ⟨hcs, hvs⟩ := h.localCopy_shaped t
  have hc : (CorrelationFunction.bondCallback values query_values cf t
      nb).m_local_histograms.localCopy u
      = if u = t then (cf.m_local_histograms.localCopy t).put (cf.m_histogram.bin [nb.distance])
          ((cf.m_local_histograms.localCopy t).get (cf.m_histogram.bin [nb.distance]) + 1)
        else cf.m_local_histograms.localCopy u :=
    ThreadLocalHistogram.localCopy_increment _ t _ 1 u
  have hv : (CorrelationFunction.bondCallback values query_values cf t
      nb).m_local_correlation_function.localCopy u
      = if u = t then
          (cf.m_local_correlation_function.localCopy t).put (cf.m_histogram.bin [nb.distance])
            ((cf.m_local_correlation_function.localCopy t).get (cf.m_histogram.bin [nb.distance])
              + values nb.ref_id * query_values nb.id)
        else cf.m_local_correlation_function.localCopy u :=
    ThreadLocalHistogram.localCopy_increment _ t _ _ u
  rw [hc, hv, hbin]
  by_cases hu : u = t
  · subst hu
    simp only [if_true, true_and, Histogram.get_put, hcs.2, hvs.2]
    by_cases hb : a.bin nb.distance = i
    · subst hb
      simp [hi]
    · simp [hb]
  · have hu' : ¬ t = u := fun h => hu h.symm
    simp [hu, hu']

/-- The effect of the bond loop on the copies of a thread `u`, cell by cell: the count cell
grows by the number of bonds the thread ran for that bin, the value cell by their products. -/
theorem CorrelationFunction.localCopy_foldl {a : RegularAxis} (values query_values : Nat → T)
    (bonds : Schedule) (cf : CorrelationFunction T) (h : cf.Inv a) (u : Nat) {i : Nat}
    (hi : i < a.nbins) :
    ((bonds.foldl (fun s p => CorrelationFunction.bondCallback values query_values s p.1 p.2)
        cf).m_local_histograms.localCopy u).get i
      = (cf.m_local_histograms.localCopy u).get i
        + (((logOf values query_values bonds).countP
            (fun e => e.1 = u ∧ a.bin e.2.1.distance = i) : Nat) : UnsignedInt) ∧
    ((bonds.foldl (fun s p => CorrelationFunction.bondCallback values query_values s p.1 p.2)
        cf).m_local_correlation_function.localCopy u).get i
      = (cf.m_local_correlation_function.localCopy u).get i
        + (((logOf values query_values bonds).filter
              (fun e => e.1 = u ∧ a.bin e.2.1.distance = i)).map (fun e => e.2.2)).sum := by
  induction bonds generalizing cf with
  | nil => simp [logOf]
  | cons p bonds ih =>
    obtain ⟨t, nb⟩ := p
    obtain ⟨ih1, ih2⟩ := ih _ (h.bondCallback_inv values query_values t nb)
    obtain ⟨h1, h2⟩ :=
      CorrelationFunction.localCopy_bondCallback h values query_values t nb u hi
    simp only [List.foldl_cons]
    rw [ih1, ih2, h1, h2]
    have hlog : logOf values query_values ((t, nb) :: bonds)
        = (t, nb, values nb.ref_id * query_values nb.id) :: logOf values query_values bonds :=
      rfl
    rw [hlog, List.countP_cons, List.filter_cons]
    by_cases hc : t = u ∧ a.bin nb.distance = i
    · simp only [hc, and_self, if_true, decide_True, List.map_cons, List.sum_cons]
      constructor
      · push_cast; ring
      · rw [add_assoc]
    · simp only [hc, if_false, decide_False, add_zero]
      simp

/-- In a recorded state, cell by cell: the count copy of a thread holds the number of recorded
bonds the thread ran for that bin, and the value copy holds the sum of their products. -/
theorem CorrelationFunction.History.localCopy_eq {r_max dr : ℚ} {log : List (LogEntry T)}
    {cf : CorrelationFunction T} (h : CorrelationFunction.History r_max dr log cf) (u : Nat) :
    ∀ i, i < nbinsOf r_max dr →
      (cf.m_local_histograms.localCopy u).get i = ((log.countP
        (fun e => e.1 = u ∧
          (RegularAxis.mk (nbinsOf r_max dr) 0 r_max).bin e.2.1.distance = i) : Nat) :
            UnsignedInt) ∧
      (cf.m_local_correlation_function.localCopy u).get i = ((log.filter
        (fun e => e.1 = u ∧
          (RegularAxis.mk (nbinsOf r_max dr) 0 r_max).bin e.2.1.distance = i)).map
        (fun e => e.2.2)).sum := by
  induction h with
  | new hnew =>
    intro i _
    obtain ⟨-, -, hinv, hc, hv⟩ := CorrelationFunction.Inv.of_new hnew
    simp only [ThreadLocalHistogram.localCopy, hc, hv, List.lookup, Option.getD_none,
      List.countP_nil, List.filter_nil, List.map_nil, List.sum_nil, Nat.cast_zero]
    exact ⟨hinv.count_proto_zero i, hinv.value_proto_zero i⟩
  | @accumulate log cf values query_values bonds hh _ ih =>
    intro i hi
    have hinv := hh.reachable.inv.2.2
    obtain ⟨h1, h2⟩ := CorrelationFunction.localCopy_foldl values query_values bonds cf hinv u
      (a := RegularAxis.mk (nbinsOf r_max dr) 0 r_max) hi
    obtain ⟨i1, i2⟩ := ih i hi
    rw [CorrelationFunction.accumulate_eq]
    constructor
    · show ((bonds.foldl (fun s p =>
          CorrelationFunction.bondCallback values query_values s p.1 p.2)
          cf).m_local_histograms.localCopy u).get i = _
      rw [h1, i1, List.countP_append, Nat.cast_add]
    · show ((bonds.foldl (fun s p =>
          CorrelationFunction.bondCallback values query_values s p.1 p.2)
          cf).m_local_correlation_function.localCopy u).get i = _
      rw [h2, i2, List.filter_append, List.map_append, List.sum_append]
  | @reset log cf hh _ =>
    intro i _
    have hinv := hh.reachable.inv.2.2
    constructor
    · rw [List.countP_nil, Nat.cast_zero]
      exact ThreadLocalHistogram.get_localCopy_reset _ hinv.count_proto_zero u i
    · exact ThreadLocalHistogram.get_localCopy_reset _ hinv.value_proto_zero u i
  | @reduce log cf s _ hred ih =>
    intro i hi
    obtain ⟨s', hs, hspec⟩ := CorrelationFunction.reduce_spec cf
    rw [hred] at hs
    injection hs with hs
    subst hs
    rw [hspec.local_count_eq, hspec.local_value_eq]
    exact ih i hi

end perThread
end freud.density

namespace freud.density
open util locality

/-- Counterexample to C3: the scenario after `2 ^ 32` bonds at distance `0.5` is a state reached
from construction by one `accumulate`; after `reduce` the count of bin 0 is 0 (the `unsigned int`
cell has wrapped) and the value of bin 0 is `8589934592`, not 0. -/
theorem CorrelationFunction.zero_count_nonzero_value :
    CorrelationFunction.Reachable 2 1
      (scenario.accumulate scenarioValues scenarioQueryValues scenarioManyBonds) ∧
    ∃ s, (scenario.accumulate scenarioValues scenarioQueryValues scenarioManyBonds).reduce
        = some s ∧
      s.m_histogram.get 0 = 0 ∧
      s.m_correlation_function.get 0 = 8589934592 ∧
      s.m_correlation_function.get 0 ≠ 0 := by
  obtain ⟨s, hs, hc, hv⟩ := scenarioManyBonds_reduce
  have h0 : s.m_correlation_function.get 0 = 8589934592 := by
    rw [Histogram.get_of_bin_counts hv]; rfl
  refine ⟨.accumulate _ _ _ (.new scenario_new) scenarioManyBonds_range, s, hs, ?_, h0, ?_⟩
  · rw [Histogram.get_of_bin_counts hc]; rfl
  · rw [h0]; norm_num

section claims35
variable {T : Type} [Field T]

/-- C3, as amended: in every state reached from construction by `accumulate`, `reset` (and
`reduce`) calls, recorded with the bonds processed since construction or the last reset,
`reduce` returns without dividing by a zero count; on every bin whose reduced count is 0 the
finishing function leaves the histogram as it is, so a bin of the axis keeps the undivided sum
of the products of its bonds; and that value is 0 when fewer than `2 ^ 32` recorded bonds fell
in the bin. -/
theorem CorrelationFunction.reduce_zero_count_zero_value (r_max dr : ℚ)
    (log : List (LogEntry T)) (cf : CorrelationFunction T)
    (h : CorrelationFunction.History r_max dr log cf) :
    ∃ s, cf.reduce = some s ∧
      ∀ b, s.m_histogram.get b = 0 →
        (∀ self : Histogram T,
          CorrelationFunction.normalizeBin s.m_histogram b self = some self) ∧
        (b < nbinsOf r_max dr →
          s.m_correlation_function.get b =
            ((log.filter (fun e => cf.m_histogram.bin [e.2.1.distance] = b)).map
              (fun e => e.2.2)).sum) ∧
        (log.countP (fun e => cf.m_histogram.bin [e.2.1.distance] = b) < 2 ^ 32 →
          s.m_correlation_function.get b = 0) := by
  obtain ⟨-, -, hinv⟩ := h.reachable.inv
  have hbin : ∀ d, cf.m_histogram.bin [d]
      = (RegularAxis.mk (nbinsOf r_max dr) 0 r_max).bin d :=
    fun d => Histogram.bin_single _ _ d hinv.count.1
  obtain ⟨s, hs, hspec, hget⟩ := CorrelationFunction.reduce_get hinv
  refine ⟨s, hs, ?_⟩
  intro b hb
  have hraw : b < nbinsOf r_max dr →
      s.m_correlation_function.get b =
        ((log.filter (fun e => cf.m_histogram.bin [e.2.1.distance] = b)).map
          (fun e => e.2.2)).sum := by
    intro hlt
    have hc := (hget b hlt).1
    rw [hb] at hc
    rw [(hget b hlt).2, ← hc]
    simp only [ne_eq, not_true_eq_false, if_false, hbin]
    exact h.value_total_eq b hlt
  refine ⟨?_, hraw, ?_⟩
  · intro self
    rw [CorrelationFunction.normalizeBin_eq, hb]
    simp
  · intro hbound
    by_cases hlt : b < nbinsOf r_max dr
    · rw [hraw hlt]
      simp only [hbin] at hbound ⊢
      have hz : ((log.countP (fun e =>
          (RegularAxis.mk (nbinsOf r_max dr) 0 r_max).bin e.2.1.distance = b) : Nat) :
            UnsignedInt) = 0 := by
        rw [← h.total_eq b hlt, ← (hget b hlt).1]
        exact hb
      have hc := natCast_eq_zero_of_lt hbound hz
      rw [List.countP_eq_zero] at hc
      rw [List.filter_eq_nil_iff.mpr hc]
      rfl
    · exact Histogram.get_of_size_le
        (by rw [hspec.value_size, hinv.value.2]; exact not_lt.mp hlt)

/-- C5, as amended: for every `(r_max, dr)` with `0 < dr ≤ r_max` the constructor returns an
object, and the number of bins it computes and gives to both axes,
`int(floorf(r_max / dr))` with the quotient rounded to `float`, is at least 1; it is the floor
of the rounded quotient when that fits an `int`, and then `floor(r_max / dr)` when rounding
kept the floor of the quotient. -/
theorem CorrelationFunction.new_nbins_ge_one (r_max dr : ℚ) (hdr : 0 < dr) (hle : dr ≤ r_max) :
    ∃ (cf : CorrelationFunction T) (nbins : Nat),
      CorrelationFunction.new T r_max dr = .ok cf ∧
      nbins = nbinsOf r_max dr ∧
      cf.m_histogram.axes = [⟨nbins, 0, r_max⟩] ∧
      cf.m_correlation_function.axes = [⟨nbins, 0, r_max⟩] ∧
      1 ≤ nbins ∧
      (⌊floatDiv r_max dr⌋ < (2 : ℤ) ^ 31 → (nbins : ℤ) = ⌊floatDiv r_max dr⌋) ∧
      (⌊floatDiv r_max dr⌋ = ⌊r_max / dr⌋ → ⌊r_max / dr⌋ < (2 : ℤ) ^ 31 →
        (nbins : ℤ) = ⌊r_max / dr⌋) :=
  ⟨_, nbinsOf r_max dr, new_ok_of_valid T hdr hle, rfl, rfl, rfl, nbins_pos hdr hle,
    nbinsOf_eq_floor_floatDiv hdr hle, nbinsOf_eq_floor hdr hle⟩

end claims35

/-- Witness of C3: after one bond at distance `0.5` the second bin of the scenario, a bin of the
axis, has count 0, and the reduction returns with value 0 there. -/
theorem CorrelationFunction.reduce_zero_count_zero_value_witness :
    CorrelationFunction.History 2 1
      ([] ++ logOf scenarioValues scenarioQueryValues scenarioOneBond)
      (scenario.accumulate scenarioValues scenarioQueryValues scenarioOneBond) ∧
    1 < nbinsOf 2 1 ∧
    ∃ s, (scenario.accumulate scenarioValues scenarioQueryValues scenarioOneBond).reduce
        = some s ∧
      s.m_histogram.get 1 = 0 ∧ s.m_correlation_function.get 1 = 0 := by
  have hh : CorrelationFunction.History 2 1
      ([] ++ logOf scenarioValues scenarioQueryValues scenarioOneBond)
      (scenario.accumulate scenarioValues scenarioQueryValues scenarioOneBond) :=
    .accumulate _ _ _ (.new scenario_new) scenarioOneBond_range
  obtain ⟨s, hs, hz⟩ := CorrelationFunction.reduce_zero_count_zero_value 2 1 _ _ hh
  obtain ⟨s', hs', -, -, hget⟩ := CorrelationFunction.accumulate_reduce_new scenario_new
    scenarioValues scenarioQueryValues scenarioOneBond scenarioOneBond_range
  rw [hs] at hs'
  injection hs' with hs'
  subst hs'
  rw [floor_two] at hget
  have e1 : s.m_histogram.get 1 = 0 := by
    rw [(hget 1 (by norm_num)).1]
    simp [scenarioOneBond, RegularAxis.inBin, RegularAxis.bin_width, List.countP_cons]
    norm_num
  refine ⟨hh, by rw [floor_two]; norm_num, s, hs, e1, (hz 1 e1).2.2 ?_⟩
  exact lt_of_le_of_lt (List.countP_le_length _) (by simp [logOf, scenarioOneBond])

/-- Counterexample to C5: `r_max = 1.0f` and `dr = 0.1f` pass the validation, and the constructor
computes 10 bins, while `floor(r_max / dr)` is 9: the `float` quotient rounds up to 10. -/
theorem CorrelationFunction.nbins_ne_floor :
    (0 : ℚ) < floatTenth ∧ floatTenth ≤ 1 ∧
    ⌊(1 : ℚ) / floatTenth⌋ = 9 ∧
    ∃ cf : CorrelationFunction ℚ, CorrelationFunction.new ℚ 1 floatTenth = .ok cf ∧
      cf.m_histogram.axes = [⟨10, 0, 1⟩] ∧
      cf.m_correlation_function.axes = [⟨10, 0, 1⟩] := by
  refine ⟨floatTenth_valid.1, floatTenth_valid.2, floor_one_tenth, _,
    new_ok_of_valid ℚ floatTenth_valid.1 floatTenth_valid.2, ?_, ?_⟩
  · rw [nbinsOf_one_tenth]; rfl
  · rw [nbinsOf_one_tenth]; rfl

/-- Witness of C5: `r_max = 2`, `dr = 1` is valid, and the constructor computes 2 bins, the floor
of the quotient. -/
theorem CorrelationFunction.new_nbins_ge_one_witness :
    (0 : ℚ) < 1 ∧ (1 : ℚ) ≤ 2 ∧
    ∃ (cf : CorrelationFunction ℚ) (nbins : Nat),
      CorrelationFunction.new ℚ 2 1 = .ok cf ∧
      nbins = 2 ∧
      (nbins : ℤ) = ⌊(2 : ℚ) / 1⌋ ∧
      cf.m_histogram.axes = [⟨nbins, 0, 2⟩] ∧
      cf.m_correlation_function.axes = [⟨nbins, 0, 2⟩] ∧
      1 ≤ nbins := by
  obtain ⟨cf, nbins, hnew, hn, h1, h2, h3, -, h5⟩ :=
    CorrelationFunction.new_nbins_ge_one (T := ℚ) 2 1 (by norm_num) (by norm_num)
  have hfl : ⌊(2 : ℚ) / 1⌋ = 2 := by rw [Int.floor_eq_iff]; norm_num
  refine ⟨by norm_num, by norm_num, cf, nbins, hnew, by rw [hn, floor_two],
    h5 (by rw [floatDiv_two_one]) (by rw [hfl]; norm_num), h1, h2, h3⟩

section claims4
variable {T : Type} [Field T]

theorem LocalPair.shaped_left {U : Type} {a : RegularAxis} {cl : List (Nat × Histogram UnsignedInt)}
    {vl : List (Nat × Histogram U)} (h : List.Forall₂ (LocalPair a) cl vl) :
    ∀ p ∈ cl, p.2.Shaped a := by
  induction h with
  | nil => intro p hp; cases hp
  | cons hcv _ ih =>
    intro p hp
    rcases List.mem_cons.mp hp with rfl | hp
    · exact hcv.2.1
    · exact ih p hp

theorem LocalPair.shaped_right {U : Type} {a : RegularAxis} {cl : List (Nat × Histogram UnsignedInt)}
    {vl : List (Nat × Histogram U)} (h : List.Forall₂ (LocalPair a) cl vl) :
    ∀ p ∈ vl, p.2.Shaped a := by
  induction h with
  | nil => intro p hp; cases hp
  | cons hcv _ ih =>
    intro p hp
    rcases List.mem_cons.mp hp with rfl | hp
    · exact hcv.2.2
    · exact ih p hp

/-- C16, as amended: in every state reached from a successful construction by `accumulate`,
`reduce` and `reset`, recorded with the bonds processed since construction or the last reset:
the canonical count and value histograms, every thread-local copy and the copy every thread
works on have the one axis of the bins the constructor computed over `[0, r_max)` and one cell
per bin; and for every thread and bin the count cell of the thread holds the number of recorded
bonds that thread added into its value cell of that bin, taken modulo `2 ^ 32`, hence that
number itself when it is below `2 ^ 32`; the value cell holds the sum of the products added. -/
theorem CorrelationFunction.geometry_and_local_counts (r_max dr : ℚ) (log : List (LogEntry T))
    (cf : CorrelationFunction T) (h : CorrelationFunction.History r_max dr log cf) :
    cf.m_histogram.Shaped ⟨nbinsOf r_max dr, 0, r_max⟩ ∧
    cf.m_correlation_function.Shaped ⟨nbinsOf r_max dr, 0, r_max⟩ ∧
    (∀ p ∈ cf.m_local_histograms.local_histograms,
      p.2.Shaped ⟨nbinsOf r_max dr, 0, r_max⟩) ∧
    (∀ p ∈ cf.m_local_correlation_function.local_histograms,
      p.2.Shaped ⟨nbinsOf r_max dr, 0, r_max⟩) ∧
    ∀ t,
      (cf.m_local_histograms.localCopy t).Shaped ⟨nbinsOf r_max dr, 0, r_max⟩ ∧
      (cf.m_local_correlation_function.localCopy t).Shaped
        ⟨nbinsOf r_max dr, 0, r_max⟩ ∧
      ∀ b, b < nbinsOf r_max dr →
        ((cf.m_local_histograms.localCopy t).get b).val
          = log.countP (fun e => e.1 = t ∧ cf.m_histogram.bin [e.2.1.distance] = b)
            % 2 ^ 32 ∧
        (log.countP (fun e => e.1 = t ∧ cf.m_histogram.bin [e.2.1.distance] = b) < 2 ^ 32 →
          ((cf.m_local_histograms.localCopy t).get b).val
            = log.countP (fun e => e.1 = t ∧ cf.m_histogram.bin [e.2.1.distance] = b)) ∧
        (cf.m_local_correlation_function.localCopy t).get b
          = ((log.filter (fun e => e.1 = t ∧ cf.m_histogram.bin [e.2.1.distance] = b)).map
              (fun e => e.2.2)).sum := by
  have hinv := h.reachable.inv.2.2
  have hb : ∀ d, cf.m_histogram.bin [d]
      = (RegularAxis.mk (nbinsOf r_max dr) 0 r_max).bin d :=
    fun d => Histogram.bin_single _ _ d hinv.count.1
  refine ⟨hinv.count, hinv.value, LocalPair.shaped_left hinv.paired,
    LocalPair.shaped_right hinv.paired, ?_⟩
  intro t
  refine ⟨(hinv.localCopy_shaped t).1, (hinv.localCopy_shaped t).2, ?_⟩
  intro b hlt
  simp only [hb]
  obtain ⟨hc, hv⟩ := h.localCopy_eq t b hlt
  rw [hc]
  exact ⟨val_natCast_unsigned _, fun hlt => val_natCast_of_lt hlt, hv⟩

/-- C17, as amended: conservation: in a state recorded with the bonds (distances in
`[0, r_max)`) accumulated since construction or the last reset, `reduce` returns, the canonical
counts summed over all bins give at most the number of those bonds (no bond is counted twice),
and they give exactly that number when fewer than `2 ^ 32` of the bonds fell in each bin. -/
theorem CorrelationFunction.reduce_conserves_bonds (r_max dr : ℚ) (log : List (LogEntry T))
    (cf : CorrelationFunction T) (h : CorrelationFunction.History r_max dr log cf) :
    ∃ s, cf.reduce = some s ∧
      (s.m_histogram.bin_counts.map Fin.val).sum ≤ log.length ∧
      ((∀ b, b < nbinsOf r_max dr →
          log.countP (fun e => cf.m_histogram.bin [e.2.1.distance] = b) < 2 ^ 32) →
        (s.m_histogram.bin_counts.map Fin.val).sum = log.length) := by
  obtain ⟨hdr, hle, hinv⟩ := h.reachable.inv
  have hn : 0 < (RegularAxis.mk (nbinsOf r_max dr) 0 r_max).nbins := nbins_pos hdr hle
  have hlt : (RegularAxis.mk (nbinsOf r_max dr) 0 r_max).min
      < (RegularAxis.mk (nbinsOf r_max dr) 0 r_max).max := lt_of_lt_of_le hdr hle
  have hb : ∀ d, cf.m_histogram.bin [d]
      = (RegularAxis.mk (nbinsOf r_max dr) 0 r_max).bin d :=
    fun d => Histogram.bin_single _ _ d hinv.count.1
  obtain ⟨s, hs, hspec, hget⟩ := CorrelationFunction.reduce_get hinv
  refine ⟨s, hs, ?_⟩
  have hsize : s.m_histogram.size = nbinsOf r_max dr :=
    hspec.count_size.trans hinv.count.2
  have hmap : s.m_histogram.bin_counts.map Fin.val
      = (List.range (nbinsOf r_max dr)).map (fun i => log.countP
          (fun e => (RegularAxis.mk (nbinsOf r_max dr) 0 r_max).bin e.2.1.distance = i)
            % 2 ^ 32) := by
    rw [Histogram.bin_counts_eq_map_get s.m_histogram, hsize, List.map_map]
    apply List.map_congr_left
    intro i hi
    have hi' : i < nbinsOf r_max dr := List.mem_range.mp hi
    simp only [Function.comp_apply]
    rw [(hget i hi').1, h.total_eq i hi']
    exact val_natCast_unsigned _
  have hclasses := sum_countP_classes
    (fun e : LogEntry T => (RegularAxis.mk (nbinsOf r_max dr) 0 r_max).bin e.2.1.distance)
    (nbinsOf r_max dr) log
    (fun e he => RegularAxis.bin_lt hn hlt (h.range e he).1 (h.range e he).2)
  rw [hmap]
  constructor
  · rw [← hclasses]
    exact List.sum_le_sum (fun i _ => Nat.mod_le _ _)
  · intro hbound
    rw [← hclasses]
    apply congrArg List.sum
    apply List.map_congr_left
    intro i hi
    have hi' : i < nbinsOf r_max dr := List.mem_range.mp hi
    have := hbound i hi'
    simp only [hb] at this
    exact Nat.mod_eq_of_lt this

/-- C18, as amended: for every valid `(r_max, dr)` the two axes the constructor builds are one
axis whose bin width is `r_max / nbins` with `nbins` the number of bins the constructor computes;
when rounding the quotient to `float` kept its floor and the floor fits an `int`, the width is
`r_max / floor(r_max / dr)`, it is at least `dr` and less than `2 * dr`, it is `dr` exactly when
`r_max` is an integer multiple of `dr`, and it is larger than `dr` otherwise. -/
theorem CorrelationFunction.bin_width_bounds (r_max dr : ℚ) (cf : CorrelationFunction T)
    (hnew : CorrelationFunction.new T r_max dr = .ok cf) :
    ∃ a : RegularAxis, cf.m_histogram.axes = [a] ∧ cf.m_correlation_function.axes = [a] ∧
      a.bin_width = r_max / ((nbinsOf r_max dr : Nat) : ℚ) ∧
      (⌊floatDiv r_max dr⌋ = ⌊r_max / dr⌋ → ⌊r_max / dr⌋ < (2 : ℤ) ^ 31 →
        a.bin_width = r_max / ((⌊r_max / dr⌋ : ℤ) : ℚ) ∧
        dr ≤ a.bin_width ∧ a.bin_width < 2 * dr ∧
        (a.bin_width = dr ↔ ∃ k : Nat, r_max = (k : ℚ) * dr) ∧
        ((¬ ∃ k : Nat, r_max = (k : ℚ) * dr) → dr < a.bin_width)) := by
  obtain ⟨hdr, hle, hinv, -⟩ := CorrelationFunction.Inv.of_new hnew
  have hw0 : (RegularAxis.mk (nbinsOf r_max dr) 0 r_max).bin_width
      = r_max / ((nbinsOf r_max dr : Nat) : ℚ) := by
    simp [RegularAxis.bin_width]
  refine ⟨_, hinv.count.1, hinv.value.1, hw0, ?_⟩
  intro hfloor hfit
  have hnb : ((nbinsOf r_max dr : Nat) : ℤ) = ⌊r_max / dr⌋ :=
    nbinsOf_eq_floor hdr hle hfloor hfit
  have hn1 : (1 : ℤ) ≤ ⌊r_max / dr⌋ := by
    have := nbins_pos hdr hle
    omega
  have hcast : ((nbinsOf r_max dr : Nat) : ℚ) = ((⌊r_max / dr⌋ : ℤ) : ℚ) := by
    exact_mod_cast hnb
  have hw : (RegularAxis.mk (nbinsOf r_max dr) 0 r_max).bin_width
      = r_max / ((⌊r_max / dr⌋ : ℤ) : ℚ) := by
    rw [hw0, hcast]
  have hnq : (1 : ℚ) ≤ ((⌊r_max / dr⌋ : ℤ) : ℚ) := by exact_mod_cast hn1
  have hnpos : (0 : ℚ) < ((⌊r_max / dr⌋ : ℤ) : ℚ) := lt_of_lt_of_le one_pos hnq
  have hfl : ((⌊r_max / dr⌋ : ℤ) : ℚ) ≤ r_max / dr := Int.floor_le _
  have hfu : r_max / dr < ((⌊r_max / dr⌋ : ℤ) : ℚ) + 1 := Int.lt_floor_add_one _
  have hlo : ((⌊r_max / dr⌋ : ℤ) : ℚ) * dr ≤ r_max := (le_div_iff₀ hdr).mp hfl
  have hup : r_max < (((⌊r_max / dr⌋ : ℤ) : ℚ) + 1) * dr := (div_lt_iff₀ hdr).mp hfu
  have hge : dr ≤ r_max / ((⌊r_max / dr⌋ : ℤ) : ℚ) := by
    rw [le_div_iff₀ hnpos]; linarith
  have heq : r_max / ((⌊r_max / dr⌋ : ℤ) : ℚ) = dr ↔ ∃ k : Nat, r_max = (k : ℚ) * dr := by
    constructor
    · intro h
      refine ⟨nbinsOf r_max dr, ?_⟩
      rw [hcast]
      rw [div_eq_iff hnpos.ne'] at h
      linarith
    · rintro ⟨k, hk⟩
      have hq : r_max / dr = (k : ℚ) := by
        rw [hk]; field_simp
      have hfloor : ⌊r_max / dr⌋ = (k : ℤ) := by
        rw [hq]; exact Int.floor_natCast k
      rw [hfloor, div_eq_iff (by rw [← hfloor]; exact hnpos.ne')]
      push_cast
      linarith
  refine ⟨hw, ?_, ?_, ?_, ?_⟩
  · rw [hw]; exact hge
  · rw [hw, div_lt_iff₀ hnpos]
    nlinarith
  · rw [hw]; exact heq
  · intro hno
    rw [hw]
    exact lt_of_le_of_ne hge (fun h => hno (heq.mp h.symm))

end claims4
end freud.density

namespace freud.density
open util locality

/-- C11: for the complex instantiation, after `accumulate` on a freshly constructed object and
`reduce`, the count of every bin is the number of bonds in its range (as the `unsigned int` cell
holds it, modulo `2 ^ 32`) and its value is the sum, over those bonds, of the ordinary complex
product of `values[ref_id] = a + bi` and `query_values[id] = c + di`, that is
`(ac - bd) + (ad + bc)i` with no conjugation, divided by the count unless the count is 0; the
value is `0` on a bin with no bond. -/
theorem CorrelationFunction.complex_product_not_conjugated (r_max dr : ℚ)
    (cf : CorrelationFunction StdComplex)
    (hnew : CorrelationFunction.new StdComplex r_max dr = .ok cf)
    (values query_values : Nat → StdComplex) (bonds : Schedule)
    (hrange : ∀ p ∈ bonds, 0 ≤ p.2.distance ∧ p.2.distance < r_max) :
    ∃ s, (cf.accumulate values query_values bonds).reduce = some s ∧
      s.m_histogram.size = nbinsOf r_max dr ∧
      s.m_correlation_function.size = nbinsOf r_max dr ∧
      ∀ b, b < nbinsOf r_max dr →
        (s.m_histogram.get b).val = (bonds.map Prod.snd).countP
          (fun nb => (RegularAxis.mk (nbinsOf r_max dr) 0 r_max).inBin b nb.distance)
            % 2 ^ 32 ∧
        (s.m_correlation_function.get b =
          if s.m_histogram.get b = 0 then
            (((bonds.map Prod.snd).filter
                (fun nb => (RegularAxis.mk (nbinsOf r_max dr) 0 r_max).inBin b
                  nb.distance)).map
              (fun nb => (⟨(values nb.ref_id).re * (query_values nb.id).re
                    - (values nb.ref_id).im * (query_values nb.id).im,
                  (values nb.ref_id).re * (query_values nb.id).im
                    + (values nb.ref_id).im * (query_values nb.id).re⟩ : StdComplex))).sum
          else
            (((bonds.map Prod.snd).filter
                (fun nb => (RegularAxis.mk (nbinsOf r_max dr) 0 r_max).inBin b
                  nb.distance)).map
              (fun nb => (⟨(values nb.ref_id).re * (query_values nb.id).re
                    - (values nb.ref_id).im * (query_values nb.id).im,
                  (values nb.ref_id).re * (query_values nb.id).im
                    + (values nb.ref_id).im * (query_values nb.id).re⟩ : StdComplex))).sum
            / (((s.m_histogram.get b).val : Nat) : StdComplex)) ∧
        ((bonds.map Prod.snd).countP
            (fun nb => (RegularAxis.mk (nbinsOf r_max dr) 0 r_max).inBin b nb.distance) = 0 →
          s.m_histogram.get b = 0 ∧ s.m_correlation_function.get b = 0) := by
  obtain ⟨s, hs, hcs, hvs, hget⟩ :=
    CorrelationFunction.accumulate_reduce_new hnew values query_values bonds hrange
  refine ⟨s, hs, hcs, hvs, ?_⟩
  intro b hb
  obtain ⟨hc, hv⟩ := hget b hb
  refine ⟨by rw [hc]; exact val_natCast_unsigned _, hv, ?_⟩
  intro hz
  have hc0 : s.m_histogram.get b = 0 := by rw [hc, hz, Nat.cast_zero]
  refine ⟨hc0, ?_⟩
  rw [hv, if_pos hc0]
  rw [List.countP_eq_zero] at hz
  rw [List.filter_eq_nil_iff.mpr hz]
  rfl

theorem scenarioComplex_new : CorrelationFunction.new StdComplex 2 1 = .ok scenarioComplex := by
  rw [new_ok_of_valid StdComplex (by norm_num) (by norm_num), floor_two]
  rfl

/-- Witness of C11, the complex-valued scenario: `r_max = 2`, `dr = 1`, `values = [1 + 0i]`,
`query_values = [0 + 1i]` and one bond at distance `0.5` give, after `reduce`, the counts
`[1, 0]` and the normalized values `[0 + 1i, 0]`. -/
theorem CorrelationFunction.complex_product_not_conjugated_witness :
    CorrelationFunction.new StdComplex 2 1 = .ok scenarioComplex ∧
    (∀ p ∈ scenarioOneBond, 0 ≤ p.2.distance ∧ p.2.distance < 2) ∧
    ∃ s, (scenarioComplex.accumulate scenarioComplexValues scenarioComplexQueryValues
        scenarioOneBond).reduce = some s ∧
      s.m_histogram.bin_counts = [1, 0] ∧
      s.m_correlation_function.bin_counts = [⟨0, 1⟩, 0] := by
  refine ⟨scenarioComplex_new, scenarioOneBond_range, ?_⟩
  obtain ⟨s, hs, hcs, hvs, hb⟩ := CorrelationFunction.complex_product_not_conjugated 2 1
    scenarioComplex scenarioComplex_new scenarioComplexValues scenarioComplexQueryValues
    scenarioOneBond scenarioOneBond_range
  rw [floor_two] at hcs hvs hb
  obtain ⟨c0, v0, -⟩ := hb 0 (by norm_num)
  obtain ⟨c1, -, z1⟩ := hb 1 (by norm_num)
  have e0 : s.m_histogram.get 0 = 1 := by
    apply Fin.ext
    rw [c0]
    simp [scenarioOneBond, RegularAxis.inBin, RegularAxis.bin_width, List.countP_cons]
    norm_num
  have n1 : (scenarioOneBond.map Prod.snd).countP
      (fun nb => (RegularAxis.mk 2 0 2).inBin 1 nb.distance) = 0 := by
    simp [scenarioOneBond, RegularAxis.inBin, RegularAxis.bin_width, List.countP_cons]
    norm_num
  obtain ⟨e1, w1⟩ := z1 n1
  refine ⟨s, hs, ?_, ?_⟩
  · rw [bin_counts_eq_pair hcs, e0, e1]
  · rw [bin_counts_eq_pair hvs, v0, w1, e0]
    simp [scenarioOneBond, RegularAxis.inBin, RegularAxis.bin_width, List.filter_cons,
      scenarioComplexValues, scenarioComplexQueryValues]
    rw [if_pos (by norm_num)]
    simp

end freud.density

namespace freud.density
open util locality

theorem scenario_bin_half : (RegularAxis.mk 2 0 2).bin (1 / 2) = 0 := by
  rw [RegularAxis.bin_eq_iff (by norm_num) (by norm_num) (by norm_num)]
  norm_num [RegularAxis.bin_width]

theorem scenario_bin_three_halves : (RegularAxis.mk 2 0 2).bin (3 / 2) = 1 := by
  rw [RegularAxis.bin_eq_iff (by norm_num) (by norm_num) (by norm_num)]
  norm_num [RegularAxis.bin_width]

theorem scenario_history :
    CorrelationFunction.History 2 1 ([] ++ logOf scenarioValues scenarioQueryValues scenarioBonds)
      (scenario.accumulate scenarioValues scenarioQueryValues scenarioBonds) :=
  .accumulate _ _ _ (.new scenario_new) scenarioBonds_range

/-- Witness of C13: in the scenario, the bond at distance `0.5` between reference point 0 and
query point 0, run by thread 0, leaves the canonical histograms alone and puts count 1 and value
`2 * 1` in the cell of its bin in the copies of thread 0. -/
theorem CorrelationFunction.bondCallback_frame_witness :
    CorrelationFunction.Reachable 2 1 scenario ∧ (0 : ℚ) ≤ 1 / 2 ∧ (1 / 2 : ℚ) < 2 ∧
    (CorrelationFunction.bondCallback scenarioValues scenarioQueryValues scenario 0
        ⟨0, 0, 1 / 2⟩).m_histogram = scenario.m_histogram ∧
    (CorrelationFunction.bondCallback scenarioValues scenarioQueryValues scenario 0
        ⟨0, 0, 1 / 2⟩).m_correlation_function = scenario.m_correlation_function ∧
    ((CorrelationFunction.bondCallback scenarioValues scenarioQueryValues scenario 0
        ⟨0, 0, 1 / 2⟩).m_local_histograms.localCopy 0).get (scenario.m_histogram.bin [1 / 2])
      = 1 ∧
    ((CorrelationFunction.bondCallback scenarioValues scenarioQueryValues scenario 0
        ⟨0, 0, 1 / 2⟩).m_local_correlation_function.localCopy 0).get
        (scenario.m_histogram.bin [1 / 2]) = 2 := by
  have hreach : CorrelationFunction.Reachable 2 1 scenario := .new scenario_new
  have hinv := hreach.inv.2.2
  obtain ⟨h1, h2, -, -, h5, h6, -⟩ := CorrelationFunction.bondCallback_frame 2 1 scenario hreach
    scenarioValues scenarioQueryValues 0 ⟨0, 0, 1 / 2⟩ (by norm_num) (by norm_num)
  refine ⟨hreach, by norm_num, by norm_num, h1, h2, ?_, ?_⟩
  · rw [h5]
    have hz : (scenario.m_local_histograms.localCopy 0).get (scenario.m_histogram.bin [1 / 2])
        = 0 := hinv.count_proto_zero _
    rw [hz, zero_add]
  · rw [h6]
    have hz : (scenario.m_local_correlation_function.localCopy 0).get
        (scenario.m_histogram.bin [1 / 2]) = 0 := hinv.value_proto_zero _
    rw [hz]
    norm_num [scenarioValues, scenarioQueryValues]

theorem scenarioMany_history :
    CorrelationFunction.History 2 1
      ([] ++ logOf scenarioValues scenarioQueryValues scenarioManyBonds)
      (scenario.accumulate scenarioValues scenarioQueryValues scenarioManyBonds) :=
  .accumulate _ _ _ (.new scenario_new) scenarioManyBonds_range

theorem logOf_scenarioManyBonds :
    [] ++ logOf scenarioValues scenarioQueryValues scenarioManyBonds
      = List.replicate 4294967296 (0, ⟨0, 0, 1 / 2⟩, 2) := by
  unfold logOf scenarioManyBonds
  rw [List.nil_append, List.map_replicate]
  simp only [scenarioValues, scenarioQueryValues]
  norm_num

/-- Witness of C16: in the scenario after its three bonds every histogram has the axis of 2
bins over `[0, 2)`, and thread 0, which ran one bond of bin 0 and one of bin 1, holds the
counts 1 and 1. -/
theorem CorrelationFunction.geometry_and_local_counts_witness :
    CorrelationFunction.History 2 1 ([] ++ logOf scenarioValues scenarioQueryValues scenarioBonds)
      (scenario.accumulate scenarioValues scenarioQueryValues scenarioBonds) ∧
    (scenario.accumulate scenarioValues scenarioQueryValues scenarioBonds).m_histogram.Shaped
      ⟨2, 0, 2⟩ ∧
    (scenario.accumulate scenarioValues scenarioQueryValues
      scenarioBonds).m_correlation_function.Shaped ⟨2, 0, 2⟩ ∧
    (∀ t,
      ((scenario.accumulate scenarioValues scenarioQueryValues
        scenarioBonds).m_local_histograms.localCopy t).Shaped ⟨2, 0, 2⟩ ∧
      ((scenario.accumulate scenarioValues scenarioQueryValues
        scenarioBonds).m_local_correlation_function.localCopy t).Shaped ⟨2, 0, 2⟩) ∧
    (((scenario.accumulate scenarioValues scenarioQueryValues
      scenarioBonds).m_local_histograms.localCopy 0).get 0).val = 1 ∧
    (((scenario.accumulate scenarioValues scenarioQueryValues
      scenarioBonds).m_local_histograms.localCopy 0).get 1).val = 1 := by
  obtain ⟨h1, h2, -, -, h5⟩ := CorrelationFunction.geometry_and_local_counts 2 1 _ _
    scenario_history
  rw [floor_two] at h1 h2 h5
  have hb : ∀ d, (scenario.accumulate scenarioValues scenarioQueryValues
      scenarioBonds).m_histogram.bin [d] = (RegularAxis.mk 2 0 2).bin d :=
    fun d => Histogram.bin_single _ _ d h1.1
  have e1 : (RegularAxis.mk 2 0 2).bin 2⁻¹ = 0 := by simpa using scenario_bin_half
  refine ⟨scenario_history, h1, h2, fun t => ⟨(h5 t).1, (h5 t).2.1⟩, ?_, ?_⟩
  · rw [((h5 0).2.2 0 (by norm_num)).1]
    simp only [hb]
    simp [logOf, scenarioBonds, List.countP_cons, e1, scenario_bin_three_halves]
  · rw [((h5 0).2.2 1 (by norm_num)).1]
    simp only [hb]
    simp [logOf, scenarioBonds, List.countP_cons, e1, scenario_bin_three_halves]

/-- Counterexample to C16: in the scenario after `2 ^ 32` bonds at distance `0.5`, all run by
thread 0, the count cell of bin 0 in the copy of thread 0 holds 0, while the thread added
`2 ^ 32` bonds into its value cell of bin 0, which holds `8589934592`. -/
theorem CorrelationFunction.local_count_wraps :
    CorrelationFunction.History 2 1
      ([] ++ logOf scenarioValues scenarioQueryValues scenarioManyBonds)
      (scenario.accumulate scenarioValues scenarioQueryValues scenarioManyBonds) ∧
    ([] ++ logOf scenarioValues scenarioQueryValues scenarioManyBonds).countP
      (fun e : LogEntry ℚ => e.1 = 0 ∧
        (scenario.accumulate scenarioValues scenarioQueryValues
          scenarioManyBonds).m_histogram.bin [e.2.1.distance] = 0) = 4294967296 ∧
    (((scenario.accumulate scenarioValues scenarioQueryValues
      scenarioManyBonds).m_local_histograms.localCopy 0).get 0).val = 0 ∧
    ((scenario.accumulate scenarioValues scenarioQueryValues
      scenarioManyBonds).m_local_correlation_function.localCopy 0).get 0 = 8589934592 := by
  have hinv := scenarioMany_history.reachable.inv.2.2
  rw [floor_two] at hinv
  have hb : ∀ d, (scenario.accumulate scenarioValues scenarioQueryValues
      scenarioManyBonds).m_histogram.bin [d] = (RegularAxis.mk 2 0 2).bin d :=
    fun d => Histogram.bin_single _ _ d hinv.count.1
  have hp : (decide ((0 : Nat) = 0 ∧ (RegularAxis.mk 2 0 2).bin (1 / 2) = 0)) = true := by
    rw [scenario_bin_half]; rfl
  have hcount : ([] ++ logOf scenarioValues scenarioQueryValues scenarioManyBonds).countP
      (fun e : LogEntry ℚ => e.1 = 0 ∧ (RegularAxis.mk 2 0 2).bin e.2.1.distance = 0)
        = 4294967296 := by
    rw [logOf_scenarioManyBonds, List.countP_replicate]
    exact if_pos hp
  obtain ⟨hc, hv⟩ := scenarioMany_history.localCopy_eq 0 0 (by rw [floor_two]; norm_num)
  rw [floor_two] at hc hv
  refine ⟨scenarioMany_history, ?_, ?_, ?_⟩
  · simp only [hb]
    exact hcount
  · rw [hc, hcount, natCast_two_pow_unsigned]
    rfl
  · rw [hv, logOf_scenarioManyBonds, List.filter_replicate, if_pos hp, List.map_replicate,
      List.sum_replicate]
    norm_num

/-- Witness of C17: in the scenario the three accumulated bonds reduce to counts whose sum
is 3. -/
theorem CorrelationFunction.reduce_conserves_bonds_witness :
    CorrelationFunction.History 2 1 ([] ++ logOf scenarioValues scenarioQueryValues scenarioBonds)
      (scenario.accumulate scenarioValues scenarioQueryValues scenarioBonds) ∧
    ∃ s, (scenario.accumulate scenarioValues scenarioQueryValues scenarioBonds).reduce = some s ∧
      (s.m_histogram.bin_counts.map Fin.val).sum = 3 := by
  obtain ⟨s, hs, -, hsum⟩ := CorrelationFunction.reduce_conserves_bonds 2 1 _ _ scenario_history
  refine ⟨scenario_history, s, hs, hsum ?_⟩
  intro b _
  exact lt_of_le_of_lt (List.countP_le_length _) (by simp [logOf, scenarioBonds])

/-- Counterexample to C17: in the scenario `2 ^ 32` bonds at distance `0.5` have been
accumulated since construction, and after `reduce` the canonical counts are `[0, 0]`, with
sum 0. -/
theorem CorrelationFunction.count_sum_wraps :
    CorrelationFunction.History 2 1
      ([] ++ logOf scenarioValues scenarioQueryValues scenarioManyBonds)
      (scenario.accumulate scenarioValues scenarioQueryValues scenarioManyBonds) ∧
    ([] ++ logOf scenarioValues scenarioQueryValues scenarioManyBonds).length = 4294967296 ∧
    ∃ s, (scenario.accumulate scenarioValues scenarioQueryValues scenarioManyBonds).reduce
        = some s ∧
      s.m_histogram.bin_counts = [0, 0] ∧
      (s.m_histogram.bin_counts.map Fin.val).sum = 0 := by
  obtain ⟨s, hs, hc, -⟩ := scenarioManyBonds_reduce
  refine ⟨scenarioMany_history, ?_, s, hs, hc, ?_⟩
  · rw [logOf_scenarioManyBonds, List.length_replicate]
  · rw [hc]; rfl

/-- Witness of C18: with `r_max = 2` and `dr = 1`, an integer multiple, the bins of the axis
have the width 1 that was asked for. -/
theorem CorrelationFunction.bin_width_bounds_witness :
    CorrelationFunction.new ℚ 2 1 = .ok scenario ∧
    ∃ a : RegularAxis, scenario.m_histogram.axes = [a] ∧
      scenario.m_correlation_function.axes = [a] ∧ a.bin_width = 1 ∧ a.bin_width < 2 * 1 := by
  obtain ⟨a, h1, h2, -, h4⟩ :=
    CorrelationFunction.bin_width_bounds 2 1 scenario scenario_new
  have hfl : ⌊(2 : ℚ) / 1⌋ = 2 := by rw [Int.floor_eq_iff]; norm_num
  obtain ⟨-, -, h5, h6, -⟩ := h4 (by rw [floatDiv_two_one]) (by rw [hfl]; norm_num)
  exact ⟨scenario_new, a, h1, h2, h6.mpr ⟨2, by norm_num⟩, h5⟩

/-- Counterexample to C18: for the valid pair `r_max = 1.0f`, `dr = 0.1f` the constructor builds
an axis of 10 bins of width `1 / 10`, which is less than `dr` and is not
`r_max / floor(r_max / dr) = 1 / 9`. -/
theorem CorrelationFunction.bin_width_below_dr :
    (0 : ℚ) < floatTenth ∧ floatTenth ≤ 1 ∧
    ∃ cf : CorrelationFunction ℚ, CorrelationFunction.new ℚ 1 floatTenth = .ok cf ∧
      ∃ a : RegularAxis, cf.m_histogram.axes = [a] ∧ cf.m_correlation_function.axes = [a] ∧
        a.bin_width = 1 / 10 ∧
        a.bin_width < floatTenth ∧
        a.bin_width ≠ 1 / ((⌊(1 : ℚ) / floatTenth⌋ : ℤ) : ℚ) := by
  refine ⟨floatTenth_valid.1, floatTenth_valid.2, _,
    new_ok_of_valid ℚ floatTenth_valid.1 floatTenth_valid.2, ⟨10, 0, 1⟩, ?_, ?_, ?_, ?_, ?_⟩
  · rw [nbinsOf_one_tenth]; rfl
  · rw [nbinsOf_one_tenth]; rfl
  · norm_num [RegularAxis.bin_width]
  · norm_num [RegularAxis.bin_width, floatTenth]
  · rw [floor_one_tenth]
    norm_num [RegularAxis.bin_width]

end freud.density
